import Mathlib

/-!
# Stack-frame recovery pass (`pass_locals.cpp`): a shallow embedding

This file embeds the stack-frame recovery core of the fcd decompiler
(`src/fcd/pass_locals.cpp`) in Lean 4 and proves properties of its
specification against the embedding.

Modelling conventions, each noted again at the relevant definition:

* LLVM IR values are identified by `VRef`: formal arguments (`arg i`),
  instructions (`inst id`) and integer constants (`cint n`).  A function is a
  list of numbered instructions in program order, a list of instructions that
  were created without an insertion point (LLVM instructions with no parent
  block; they still participate in use lists), argument types, the
  stack-pointer-argument metadata, and the set of "stack frame" tagged
  instruction ids.
* `DataLayout::getTypeStoreSize` is modelled for a 64-bit layout; every type of
  the model is sized.
* Iteration over a value's users follows program order (attached instructions
  first, then detached ones).  The C++ use-list order is likewise a
  deterministic order fixed by construction; nothing proved here depends on
  which fixed order is used except "first user encountered" claims, which are
  stated relative to this order.
* `assert(...)` statements of the source are release-build no-ops and are
  modelled as such; the spots where an assertion would fire in a debug build
  are noted in comments.
* Undefined behaviour gets no defined model: when the driver's unchecked
  `cast<StructureStackObject>(*root)` is reached with a leaf root (the
  stack pointer's classification recorded no constant offset), a debug build
  asserts and a release build iterates a `fields` vector the object does not
  have, so `runOnFunction` returns `none` for such a run and
  `some (function, changed)` for a defined one.
* `std::map` is an ascending-by-key association list whose `insert` keeps the
  first binding for a key; `unordered_map` is an association list with
  overwriting update (its iteration order is never observable in the code
  paths modelled here).
* `std::sort` with the access comparator is modelled by a stable insertion
  sort; the comparator's ties are between accesses with equal offset, size and
  priority, where `std::sort` may produce any order, and the stable order is
  one of the admissible outcomes.
-/

namespace PassLocals

/-! ## LLVM types and data layout -/

mutual
/-- LLVM types as used by the pass: integer types of a given bit width, float,
void, pointers, arrays and (packed) struct types.  Struct field lists use the
companion type `LTypes` so that all recursion stays structural. -/
inductive LType where
  | int : Nat → LType
  | float : LType
  | void : LType
  | ptr : LType → LType
  | arr : LType → Nat → LType
  | strukt : LTypes → LType
deriving DecidableEq, Repr

/-- A list of `LType`s (struct field list). -/
inductive LTypes where
  | nil : LTypes
  | cons : LType → LTypes → LTypes
deriving DecidableEq, Repr
end

/-- Build an `LTypes` field list from a `List LType`. -/
def LTypes.ofList : List LType → LTypes
  | [] => .nil
  | t :: ts => .cons t (LTypes.ofList ts)

mutual
/-- `DataLayout::getTypeStoreSize` for a 64-bit little-endian layout:
integers take ⌈bits/8⌉ bytes, floats 4, pointers 8, arrays and packed structs
the sum of their parts.  (All structs built by the pass are packed.) -/
def storeSize : LType → Nat
  | .int n => (n + 7) / 8
  | .float => 4
  | .void => 0
  | .ptr _ => 8
  | .arr t n => n * storeSize t
  | .strukt fs => storeSizeList fs

/-- Store size of a struct field list (packed: plain sum). -/
def storeSizeList : LTypes → Nat
  | .nil => 0
  | .cons t ts => storeSize t + storeSizeList ts
end

/-- `OverlappingTypedAccesses::getTypePriority`: array 5, struct 4, pointer 3,
float 2, integer 1, anything else 0. -/
def typePriority : LType → Nat
  | .arr _ _ => 5
  | .strukt _ => 4
  | .ptr _ => 3
  | .float => 2
  | .int _ => 1
  | .void => 0

/-! ## Padding (`OverlappingTypedAccesses::pad`) -/

/-- The greedy integer-filler loop of `pad`:
`for (int i = 8; i > 0 && difference > 0; i /= 2) if (difference >= i) ...`,
emitting an integer type of `i * 8` bits and shrinking the difference each
time the current size fits.  The sizes tried are exactly `[8, 4, 2, 1]`. -/
def padIntsAux : List Nat → Nat → List LType
  | [], _ => []
  | i :: rest, d => if i ≤ d then LType.int (i * 8) :: padIntsAux rest (d - i) else padIntsAux rest d

/-- `OverlappingTypedAccesses::pad`, in emission order: when the byte
difference exceeds 16, first an `[difference/8 x i64]` array (shrinking the
difference by `numElements * 8`), then the greedy integer fillers. -/
def pad (d : Nat) : List LType :=
  if 16 < d then
    LType.arr (LType.int 64) (d / 8) :: padIntsAux [8, 4, 2, 1] (d - d / 8 * 8)
  else
    padIntsAux [8, 4, 2, 1] d

/-- Total store size of a list of padding types. -/
def padBytes (l : List LType) : Nat := (l.map storeSize).sum

/-! ## Typed accesses, overlap windows and `reduce` -/

/-- `OverlappingTypedAccesses::TypedAccess`.  The `StackObject*` owner is
identified by the object's path from the root of the abstract stack tree
(list of field ordinals), which is what the C++ pointer identity provides. -/
structure TypedAccess where
  offset : Int
  obj : List Nat
  ty : LType
deriving DecidableEq, Repr

/-- `TypedAccess::size`: the store size of the access type (every type of the
model is sized, so the `isSized` guard of the source is always true). -/
def TypedAccess.size (a : TypedAccess) : Nat := storeSize a.ty

/-- `TypedAccess::endOffset = offset + size`. -/
def TypedAccess.endOff (a : TypedAccess) : Int := a.offset + (a.size : Int)

/-- The strict-weak-order comparator passed to `sort` in `reduce`: descending
offset, then descending store size, then descending type priority. -/
def accBefore (a b : TypedAccess) : Bool :=
  if a.offset > b.offset then true
  else if a.offset < b.offset then false
  else if storeSize a.ty > storeSize b.ty then true
  else if storeSize a.ty < storeSize b.ty then false
  else decide (typePriority a.ty > typePriority b.ty)

/-- Insertion step of the stable insertion sort implementing `std::sort` with
`accBefore` (see the modelling conventions above). -/
def insertSorted (a : TypedAccess) : List TypedAccess → List TypedAccess
  | [] => [a]
  | b :: rest => if accBefore a b then a :: b :: rest else b :: insertSorted a rest

/-- `sort(sortedAccesses.begin(), sortedAccesses.end(), ...)` on a copy of the
access list. -/
def sortAccesses (l : List TypedAccess) : List TypedAccess := l.foldr insertSorted []

/-- Update-or-add on the `unordered_map<const StackObject*, int>` of gep
indices (`gepIndices[object] = v`). -/
def gepSet (k : List Nat) (v : Int) : List (List Nat × Int) → List (List Nat × Int)
  | [] => [(k, v)]
  | (k', v') :: rest => if k' = k then (k, v) :: rest else (k', v') :: gepSet k v rest

/-- Lookup in the gep-index map (`gepIndices.find(object)`). -/
def gepGet (k : List Nat) (m : List (List Nat × Int)) : Option Int :=
  (m.find? (fun p => p.1 = k)).map (·.2)

/-- `OverlappingTypedAccesses::endOffset`: the end offset of the *last
inserted* access, or 0 for an empty window. -/
def winEnd (w : List TypedAccess) : Int :=
  match w.getLast? with
  | none => 0
  | some a => a.endOff

/-- `OverlappingTypedAccesses::insert`: refuses the access (returns `none`)
iff the window is nonempty and the end offset of the *last inserted* access
(`accesses.back()`) is ≤ the new offset; otherwise appends it. -/
def winInsert (w : List TypedAccess) (a : TypedAccess) : Option (List TypedAccess) :=
  match w.getLast? with
  | some b => if b.endOff ≤ a.offset then none else some (w ++ [a])
  | none => some [a]

/-- The walk of `reduce` over the sorted tail: maintains the deque
`structBody`, the running `startOffset`/`endOffset`, the `fieldCount` and the
gep-index map.  Front padding is pushed through `front_inserter` (so the
emission order is reversed at the front of the deque), back padding through
`back_inserter`; the subsequent access's own type is *not* pushed — its gep
index placeholder is `-structBody.size()` after padding. -/
def reduceGo : List TypedAccess → List LType → Int → Int → Nat → List (List Nat × Int) →
    List LType × Nat × List (List Nat × Int)
  | [], body, _, _, fc, gep => (body, fc, gep)
  | it :: rest, body, startOff, endOff, fc, gep =>
    let frontDiff := startOff - it.offset
    let body1 := if 0 < frontDiff then (pad frontDiff.toNat).reverse ++ body else body
    let startOff1 := if 0 < frontDiff then it.offset else startOff
    let fc1 := if 0 < frontDiff then fc + 1 else fc
    let backDiff := it.endOff - endOff
    let body2 := if 0 < backDiff then body1 ++ pad backDiff.toNat else body1
    let endOff1 := if 0 < backDiff then it.endOff else endOff
    reduceGo rest body2 startOff1 endOff1 fc1 (gepSet it.obj (-(body2.length : Int)) gep)

/-- `OverlappingTypedAccesses::reduce`: returns the number of useful fields,
the output type and the translated gep-index map.  An empty access list
asserts in a debug build and yields 0 fields (release behaviour); a singleton
yields its own type; otherwise the sorted walk runs, and if only one useful
field remains the sole front element of the deque is returned with the map
cleared, else the deque is wrapped in a packed struct and each placeholder is
shifted by the deque length. -/
def reduce (accesses : List TypedAccess) : Nat × Option LType × List (List Nat × Int) :=
  match accesses with
  | [] => (0, none, [])
  | [a] => (1, some a.ty, [])
  | _ =>
    match sortAccesses accesses with
    | [] => (0, none, [])
    | first :: rest =>
      let r := reduceGo rest [first.ty] first.offset first.endOff 1 [(first.obj, (-1 : Int))]
      if r.2.1 = 1 then (1, r.1.head?, [])
      else (r.2.1, some (.strukt (.ofList r.1)), r.2.2.map (fun p => (p.1, p.2 + (r.1.length : Int))))

/-! ## The IR model -/

/-- A reference to an SSA value: a formal argument, an instruction result, or
an integer constant (`ConstantInt`, modelled with its signed 64-bit value). -/
inductive VRef where
  | arg : Nat → VRef
  | inst : Nat → VRef
  | cint : Int → VRef
deriving DecidableEq, Repr

/-- The instruction kinds the pass distinguishes.  `add`/`binOther` are the
`BinaryOperator`s (addition vs. any other opcode); `intToPtr`, `ptrToInt`,
`bitcast` and `castOther` are the `CastInst`s; `other` stands for every
remaining kind (comparisons, returns, ...). -/
inductive InstKind where
  | add | binOther
  | intToPtr | ptrToInt | bitcast | castOther
  | load | store | call | phi
  | gep | alloca
  | other
deriving DecidableEq, Repr

/-- An instruction: kind, operand list, result type.  Conventions: a store's
operands are `[value, pointer]` (so `getValueOperand` is operand 0) and its
result type is `void`; a load's operand is the pointer and its type the
loaded type; a binary operator's operands are `[lhs, rhs]`. -/
structure Instr where
  kind : InstKind
  ops : List VRef
  ty : LType
deriving DecidableEq, Repr

/-- A function: argument types, numbered instructions in program order,
instructions created without an insertion point (no parent block — they still
appear in use lists), the stack-pointer-argument metadata
(`md::getStackPointerArgument`) and the ids carrying "stack frame" metadata. -/
structure Func where
  args : List LType
  instrs : List (Nat × Instr)
  detached : List (Nat × Instr)
  spArg : Option Nat
  frameTags : List Nat
deriving DecidableEq, Repr

/-- All existing instructions of a function, attached first. -/
def Func.all (f : Func) : List (Nat × Instr) := f.instrs ++ f.detached

/-- The users of a value: every instruction having it among its operands, in
program order (see the modelling conventions on use-list order). -/
def usersOf (f : Func) (v : VRef) : List (Nat × Instr) :=
  f.all.filter (fun p => v ∈ p.2.ops)

/-- The type of a value: argument types from the signature, instruction
results from the instruction, integer constants are `i64` (the only constants
the modelled code paths build or inspect are 64-bit stack offsets). -/
def typeOfVRef (f : Func) (v : VRef) : LType :=
  match v with
  | .arg i => (f.args.get? i).getD .void
  | .inst id => ((f.all.find? (fun p => p.1 = id)).map (·.2.ty)).getD .void
  | .cint _ => .int 64

/-! ## Offset classifier (`IdentifyLocals::analyzeObject`) -/

/-- `binOp->getOperand(binOp->getOperand(0) == &base ? 1 : 0)`: the other
operand of a two-operand binary user.  A binary operator with an operand list
of any other shape is not well-formed IR; it is mapped to `none`, which the
classifier treats as failure. -/
def otherOperand (base : VRef) (i : Instr) : Option VRef :=
  match i.ops with
  | [a, b] => some (if a = base then b else a)
  | _ => none

/-- Ascending-by-key insert into the `map<int64_t, Instruction*>` of constant
offsets; `std::map::insert` keeps the existing binding when the key is
already present. -/
def mapInsert (k : Int) (v : Nat) : List (Int × Nat) → List (Int × Nat)
  | [] => [(k, v)]
  | (k', v') :: rest =>
    if k < k' then (k, v) :: (k', v') :: rest
    else if k = k' then (k', v') :: rest
    else (k', v') :: mapInsert k v rest

/-- Result of the classifier: the `hasCastInst` flag and the constant-offset
map.  The C++ also carries a `variableOffsetStrides` map, but no code path
ever inserts into it (a non-constant added offset fails the classification
immediately), so it is omitted here. -/
structure ClassifyResult where
  hasCast : Bool
  constantOffsets : List (Int × Nat)
deriving DecidableEq, Repr

/-- The user loop of `IdentifyLocals::analyzeObject`: a binary operator that
is not an addition fails, an addition whose other operand is not a constant
integer fails, an addition of a constant is recorded, a cast sets
`hasCastInst` when its opcode is `IntToPtr`, and *every other user is ignored*
(the `else` branch of the source matches nothing else). -/
def analyzeGo (base : VRef) : List (Nat × Instr) → Bool → List (Int × Nat) →
    Option ClassifyResult
  | [], hc, m => some ⟨hc, m⟩
  | (uid, u) :: rest, hc, m =>
    match u.kind with
    | .add =>
      match otherOperand base u with
      | some (.cint c) => analyzeGo base rest hc (mapInsert c uid m)
      | _ => none
    | .binOther => none
    | .intToPtr => analyzeGo base rest true m
    | .ptrToInt => analyzeGo base rest hc m
    | .bitcast => analyzeGo base rest hc m
    | .castOther => analyzeGo base rest hc m
    | _ => analyzeGo base rest hc m

/-- `IdentifyLocals::analyzeObject`. -/
def analyzeObject (f : Func) (base : VRef) : Option ClassifyResult :=
  analyzeGo base (usersOf f base) false []

/-! ## Abstract stack objects and `readObject` -/

mutual
/-- `StackObject`: a leaf object (`ObjectStackObject`, holding the SSA value
whose integer result is the offset) or a structure
(`StructureStackObject`).  The C++ `parent` back-pointer is unconditionally
initialised to null and never read, so it is omitted. -/
inductive SObj where
  | obj : VRef → SObj
  | strukt : SFields → SObj
deriving DecidableEq, Repr

/-- The ordered field list of a structure: (offset, child) pairs in insertion
order. -/
inductive SFields where
  | nil : SFields
  | cons : Int → SObj → SFields → SFields
deriving DecidableEq, Repr
end

/-- Append a field at the end of a field list (`StructureStackObject::insert`
at `end()`). -/
def SFields.snoc : SFields → Int → SObj → SFields
  | .nil, o, c => .cons o c .nil
  | .cons o' c' rest, o, c => .cons o' c' (rest.snoc o c)

/-- The field list as a `List`. -/
def SFields.toList : SFields → List (Int × SObj)
  | .nil => []
  | .cons o c rest => (o, c) :: rest.toList

mutual
/-- The offset values of all leaves of a stack object, depth first in field
order. -/
def leafVals : SObj → List VRef
  | .obj v => [v]
  | .strukt fs => leafValsF fs

/-- `leafVals` over a field list. -/
def leafValsF : SFields → List VRef
  | .nil => []
  | .cons _ c rest => leafVals c ++ leafValsF rest
end

/-- The child-building loop of `IdentifyLocals::readObject`: for every
`(offset, add-instruction)` of the constant-offset map in ascending key
order, recursively read the child and, on success, append it at the
normalised offset `offset - front`; a failed child is skipped. `readChild` is
the recursive call, abstracted so the function is structural in the map. -/
def readFields (front : Int) (readChild : Nat → Option SObj) :
    List (Int × Nat) → SFields → SFields
  | [], acc => acc
  | (c, uid) :: rest, acc =>
    match readChild uid with
    | some child => readFields front readChild rest (acc.snoc (c - front) child)
    | none => readFields front readChild rest acc

/-- `IdentifyLocals::readObject`, with explicit recursion fuel (the C++
recursion descends the use-def graph, which is acyclic in well-formed SSA; the
driver supplies fuel larger than the instruction count, which bounds any
chain).  Classification failure fails the object; a non-empty constant-offset
map builds a structure — with an implicit leaf for `base` itself at offset 0
when `hasCastInst` — and otherwise the object is a leaf for `base`.  (The
`variableOffsetsStrides.size() > 0` branch of the source is unreachable, see
`ClassifyResult`.) -/
def readObject (f : Func) : Nat → VRef → Option SObj
  | 0, _ => none
  | fuel + 1, base =>
    match analyzeObject f base with
    | none => none
    | some r =>
      match r.constantOffsets with
      | [] => some (.obj base)
      | (front, uid0) :: rest =>
        let start : SFields := if r.hasCast then .cons 0 (.obj base) .nil else .nil
        some (.strukt (readFields front (fun uid => readObject f fuel (.inst uid))
          ((front, uid0) :: rest) start))

/-! ## Witnessed-type collection (`ObjectStackObject::getUnionTypes`) -/

/-- Insert a type into an insertion-ordered set (models the `SmallPtrSet` in
its inline small mode, where iteration follows insertion order; see the
remark on determinism in the results). -/
def insertUnique (l : List LType) (t : LType) : List LType :=
  if t ∈ l then l else l ++ [t]

/-- Whether a type is an integer type (`Type::isIntegerTy`). -/
def isIntTy : LType → Bool
  | .int _ => true
  | _ => false

/-- `ObjectStackObject::getCastTypes` on the cast instruction `castId`: every
load user contributes its loaded type and — when that type is an integer —
the types reached through any further `IntToPtr` cast of the loaded value,
wrapped in a pointer; every store user contributes the type of its value
operand.  `fuel` bounds the descent through nested casts (acyclic in
well-formed SSA). -/
def getCastTypes (f : Func) : Nat → Nat → List LType → List LType
  | 0, _, types => types
  | fuel + 1, castId, types =>
    (usersOf f (.inst castId)).foldl (fun acc p =>
      match p.2.kind with
      | .load =>
        let acc1 := insertUnique acc p.2.ty
        if isIntTy p.2.ty then
          (usersOf f (.inst p.1)).foldl (fun acc2 q =>
            if q.2.kind = .intToPtr then
              (getCastTypes f fuel q.1 []).foldl (fun a t => insertUnique a (.ptr t)) acc2
            else acc2) acc1
        else acc1
      | .store =>
        match p.2.ops with
        | v :: _ => insertUnique acc (typeOfVRef f v)
        | [] => acc
      | _ => acc) types

/-- `ObjectStackObject::getUnionTypes`: walk the users of the leaf's offset
value; any cast user contributes through `getCastTypes`; a store or call user
sets `defaultsToVoid`; everything else is ignored (the source asserts the
remaining users are binary operators or phis — a debug-build check).  When no
type was witnessed and `defaultsToVoid` holds, the set becomes `{i8}`. -/
def getUnionTypes (f : Func) (fuel : Nat) (v : VRef) : List LType :=
  let r := (usersOf f v).foldl (fun (acc : List LType × Bool) p =>
    match p.2.kind with
    | .intToPtr | .ptrToInt | .bitcast | .castOther => (getCastTypes f fuel p.1 acc.1, acc.2)
    | .store | .call => (acc.1, true)
    | _ => acc) ([], false)
  if r.1 = [] ∧ r.2 then [.int 8] else r.1

/-! ## The frame representation (`LlvmStackFrame`) -/

/-- `LlvmStackFrame::GepLink`: optional parent (an index into the link arena)
and the optionally-set `(index, expectedType)` pair (`setIndex`). -/
structure Link where
  parent : Option Nat
  idx : Option (Int × LType)
deriving DecidableEq, Repr

/-- The state of a `LlvmStackFrame` under construction: the link arena, the
`linkMap` from stack objects (identified by their path of field ordinals from
the root) to links, the `typeMap`, and `allObjects` — the represented leaves
with their offset values, in representation order. -/
structure FrameSt where
  links : List Link
  linkMap : List (List Nat × Nat)
  typeMap : List (List Nat × LType)
  allObjs : List (List Nat × VRef)
deriving DecidableEq, Repr

/-- The empty frame state. -/
def FrameSt.empty : FrameSt := ⟨[], [], [], []⟩

/-- Pointwise update of a list at an index. -/
def updateAt {α : Type} : List α → Nat → (α → α) → List α
  | [], _, _ => []
  | x :: rest, 0, g => g x :: rest
  | x :: rest, n + 1, g => x :: updateAt rest n g

/-- `LlvmStackFrame::createLink`: a fresh link at the end of the arena. -/
def stCreateLink (st : FrameSt) : Nat × FrameSt :=
  (st.links.length, { st with links := st.links ++ [⟨none, none⟩] })

/-- `LlvmStackFrame::linkFor`: the link of an object, created on first use. -/
def stLinkFor (st : FrameSt) (path : List Nat) : Nat × FrameSt :=
  match st.linkMap.find? (fun p => p.1 = path) with
  | some p => (p.2, st)
  | none =>
    let r := stCreateLink st
    (r.1, { r.2 with linkMap := r.2.linkMap ++ [(path, r.1)] })

/-- `GepLink::setIndex`. -/
def stSetIdx (st : FrameSt) (lid : Nat) (i : Int) (t : LType) : FrameSt :=
  { st with links := updateAt st.links lid (fun l => { l with idx := some (i, t) }) }

/-- `GepLink::setParent` (the source asserts the previous parent was null — a
debug-build check; the assignment itself is unconditional). -/
def stSetParent (st : FrameSt) (lid : Nat) (p : Nat) : FrameSt :=
  { st with links := updateAt st.links lid (fun l => { l with parent := some p }) }

/-- Update-or-add on the `typeMap` (`typeMap[object] = type`; the source
asserts the previous entry was null — a debug-build check). -/
def typeMapSet (m : List (List Nat × LType)) (path : List Nat) (t : LType) :
    List (List Nat × LType) :=
  match m with
  | [] => [(path, t)]
  | p :: rest => if p.1 = path then (path, t) :: rest else p :: typeMapSet rest path t

/-- `LlvmStackFrame::getNaiveType`: lookup in the `typeMap`. -/
def typeMapGet (m : List (List Nat × LType)) (path : List Nat) : Option LType :=
  (m.find? (fun p => p.1 = path)).map (·.2)

/-- The per-access linking loop of `LlvmStackFrame::reduceStructField` in the
multi-field case: every access's object gets a link whose index is its
translated gep index (failure when the gep map misses — the source asserts
and returns null there) and whose parent is the wrapping struct's link. -/
def linkFields (gep : List (List Nat × Int)) (slid : Nat) :
    List TypedAccess → FrameSt → Option FrameSt
  | [], st => some st
  | a :: rest, st =>
    match gepGet a.obj gep with
    | none => none
    | some gi =>
      let r := stLinkFor st a.obj
      linkFields gep slid rest (stSetParent (stSetIdx r.2 r.1 gi a.ty) r.1 slid)

/-- `LlvmStackFrame::reduceStructField`: run `reduce` on the window; zero
useful fields fail (debug assert, null in release); with one useful field
every access's link points at field `index` of the parent with its own access
type; with several, a fresh link for the wrapping struct is parented to the
parent at `index` and every access is linked below it. -/
def reduceStructField (st : FrameSt) (accesses : List TypedAccess) (parentLink : Nat)
    (index : Int) : Option (LType × FrameSt) :=
  let r := reduce accesses
  match r.2.1 with
  | none => none
  | some resultType =>
    if r.1 = 1 then
      let st1 := accesses.foldl (fun s a =>
        let rl := stLinkFor s a.obj
        stSetParent (stSetIdx rl.2 rl.1 index a.ty) rl.1 parentLink) st
      some (resultType, st1)
    else
      let rc := stCreateLink st
      let st1 := stSetIdx (stSetParent rc.2 rc.1 parentLink) rc.1 index resultType
      match linkFields r.2.2 rc.1 accesses st1 with
      | none => none
      | some st2 => some (resultType, st2)

/-- The insertion loop of `LlvmStackFrame::representObject(ObjectStackObject)`:
each witnessed type is inserted at offset 0; a refused insertion fails the
leaf. -/
def winFoldTypes (path : List Nat) : List LType → List TypedAccess →
    Option (List TypedAccess)
  | [], w => some w
  | t :: ts, w =>
    match winInsert w ⟨0, path, t⟩ with
    | some w1 => winFoldTypes path ts w1
    | none => none

mutual
/-- `LlvmStackFrame::representObject`, dispatched on the dynamic type of the
stack object: this models the `dyn_cast` chain of the `StackObject*`
overload, through which all *children* of a structure are represented
(`StackObject* fieldObject = field.object.get()`).  The root never passes
through this dispatch — see `representFrame`.

For a leaf: collect the witnessed types, insert them all at offset 0,
`reduce`, and fail unless exactly one useful field results; record the type
and push the leaf onto `allObjects`.

For a structure: take this object's link, walk the fields accumulating
overlap windows (`repFields`), flush the final window, and record the packed
struct of the collected field types. -/
def repObj (f : Func) (gfuel : Nat) (path : List Nat) (st : FrameSt) :
    SObj → Option FrameSt
  | .obj v =>
    match winFoldTypes path (getUnionTypes f gfuel v) [] with
    | none => none
    | some w =>
      let r := reduce w
      match r.1, r.2.1 with
      | 1, some t =>
        some { st with typeMap := typeMapSet st.typeMap path t,
                       allObjs := st.allObjs ++ [(path, v)] }
      | _, _ => none
  | .strukt fields =>
    let rl := stLinkFor st path
    match repFields f gfuel path rl.1 0 [] [] rl.2 fields with
    | none => none
    | some (w, fts, st2) =>
      match w with
      | [] =>
        some { st2 with typeMap := typeMapSet st2.typeMap path (.strukt (.ofList fts)) }
      | _ :: _ =>
        match reduceStructField st2 w rl.1 (fts.length : Int) with
        | none => none
        | some (result, st3) =>
          some { st3 with
            typeMap := typeMapSet st3.typeMap path (.strukt (.ofList (fts ++ [result]))) }

/-- The field loop of `LlvmStackFrame::representObject(StructureStackObject)`:
represent each child; insert `(offset, child, childType)` into the running
window; when it no longer overlaps, flush the window through
`reduceStructField` at the next field position, append an `[N x i8]` pad if a
gap remains up to this child's offset, and seed a fresh window with this
child.  Any failure propagates. -/
def repFields (f : Func) (gfuel : Nat) (path : List Nat) (thisLink : Nat) :
    Nat → List TypedAccess → List LType → FrameSt → SFields →
    Option (List TypedAccess × List LType × FrameSt)
  | _, w, fts, st, .nil => some (w, fts, st)
  | i, w, fts, st, .cons off child rest =>
    match repObj f gfuel (path ++ [i]) st child with
    | none => none
    | some st1 =>
      match typeMapGet st1.typeMap (path ++ [i]) with
      | none => none
      | some fieldTy =>
        match winInsert w ⟨off, path ++ [i], fieldTy⟩ with
        | some w1 => repFields f gfuel path thisLink (i + 1) w1 fts st1 rest
        | none =>
          match reduceStructField st1 w thisLink (fts.length : Int) with
          | none => none
          | some (result, st2) =>
            let fts1 := fts ++ [result]
            let padding := off - winEnd w
            let fts2 := if 0 < padding then fts1 ++ [.arr (.int 8) padding.toNat] else fts1
            repFields f gfuel path thisLink (i + 1) [⟨off, path ++ [i], fieldTy⟩] fts2 st2 rest
end

/-- The public `LlvmStackFrame::representObject`: represent the root, then set
the root's link to index 0 at the root type.  Returns the frame state and the
root's naive type.  The root argument has static type
`const StructureStackObject*` — `frame->representObject(&object)` selects the
`Structure` overload at compile time, only *children* dispatch dynamically —
so this function is only ever reached with a structure root: the driver's
`cast<StructureStackObject>` has already made a leaf root undefined behaviour
(see `runOnFunction`), and the leaf branch here is dead (mapped to `none`,
never consulted). -/
def representFrame (f : Func) (gfuel : Nat) (root : SObj) : Option (FrameSt × LType) :=
  match root with
  | .obj _ => none
  | .strukt fields =>
    match repObj f gfuel [] FrameSt.empty (.strukt fields) with
    | none => none
    | some st =>
      match typeMapGet st.typeMap [] with
      | none => none
      | some rootTy =>
        let rl := stLinkFor st []
        some (stSetIdx rl.2 rl.1 0 rootTy, rootTy)

/-! ## Pointer paths and emission -/

/-- `GepLink::toVector`: the `(index, expectedType)` pairs from the root to
this link.  An unset index models the null `Value*`/`Type*` of a fresh link
(unreachable for represented frames) and is read as `(0, void)`.  `fuel`
bounds the parent chain (the arena is acyclic by construction). -/
def linkToVector (st : FrameSt) : Nat → Nat → List (Int × LType)
  | 0, _ => []
  | fuel + 1, lid =>
    match st.links.get? lid with
    | none => []
    | some l =>
      match l.parent with
      | none => [l.idx.getD (0, .void)]
      | some p => linkToVector st fuel p ++ [l.idx.getD (0, .void)]

/-- Field lookup in a struct field list. -/
def ltypesGet : LTypes → Nat → Option LType
  | .nil, _ => none
  | .cons t _, 0 => some t
  | .cons _ rest, n + 1 => ltypesGet rest n

/-- Indexing of an aggregate type by the tail of a gep index list. -/
def indexInto : LType → List Int → Option LType
  | t, [] => some t
  | .arr e _, _ :: rest => indexInto e rest
  | .strukt fs, i :: rest =>
    if i < 0 then none
    else
      match ltypesGet fs i.toNat with
      | some t => indexInto t rest
      | none => none
  | _, _ :: _ => none

/-- `GetElementPtrInst::getIndexedType(pointerType, indices)`: the first index
steps through the pointer, the rest walk into the pointee; null (`none`) when
the indices do not fit the type. -/
def getIndexedType (t : LType) (idxs : List Int) : Option LType :=
  match t, idxs with
  | .ptr inner, _ :: rest => indexInto inner rest
  | _, _ => none

/-- The emission state: the function being rewritten and the next fresh
instruction id. -/
structure EmitSt where
  g : Func
  next : Nat
deriving DecidableEq, Repr

/-- Insert an instruction immediately before the instruction with id
`target` (the `insertBefore` constructor argument).  The target is always
present in the modelled flows; an absent target appends at the end. -/
def insertBeforeId (l : List (Nat × Instr)) (target : Nat) (e : Nat × Instr) :
    List (Nat × Instr) :=
  match l with
  | [] => [e]
  | x :: rest => if x.1 = target then e :: x :: rest else x :: insertBeforeId rest target e

/-- Create one instruction: with an insertion point it goes immediately before
that instruction; with a null insertion point (`none`) it is created without a
parent block — LLVM keeps such an instruction dangling, and it still appears
in use lists. -/
def emit (es : EmitSt) (k : InstKind) (ops : List VRef) (ty : LType)
    (before : Option Nat) : Nat × EmitSt :=
  let ins : Nat × Instr := (es.next, ⟨k, ops, ty⟩)
  match before with
  | none => (es.next, ⟨{ es.g with detached := es.g.detached ++ [ins] }, es.next + 1⟩)
  | some t => (es.next, ⟨{ es.g with instrs := insertBeforeId es.g.instrs t ins }, es.next + 1⟩)

/-- The link walk of `LlvmStackFrame::getPointerToObject`: push each link's
index; while the host's `getIndexedType` agrees with the link's expected type
keep accumulating; otherwise emit a `getelementptr` with the accumulated
indices and a `bitcast` to the expected pointer type, and restart the index
vector at `[0]`.  After the walk an index vector longer than one emits a
final `getelementptr`. -/
def getPtrGo (before : Option Nat) : List (Int × LType) → VRef → List Int → EmitSt →
    VRef × EmitSt
  | [], result, gi, es =>
    if 1 < gi.length then
      let t := (getIndexedType (typeOfVRef es.g result) gi).getD .void
      let r := emit es .gep (result :: gi.map VRef.cint) (.ptr t) before
      (.inst r.1, r.2)
    else (result, es)
  | (i, expected) :: rest, result, gi, es =>
    let gi1 := gi ++ [i]
    if getIndexedType (typeOfVRef es.g result) gi1 = some expected then
      getPtrGo before rest result gi1 es
    else
      let t := (getIndexedType (typeOfVRef es.g result) gi1).getD .void
      let rg := emit es .gep (result :: gi1.map VRef.cint) (.ptr t) before
      let rc := emit rg.2 .bitcast [.inst rg.1] (.ptr expected) before
      getPtrGo before rest (.inst rc.1) [0] rc.2

/-- `LlvmStackFrame::getPointerToObject` for a link id, starting from the base
pointer with an empty index vector. -/
def getPtr (st : FrameSt) (es : EmitSt) (lid : Nat) (basePtr : VRef)
    (before : Option Nat) : VRef × EmitSt :=
  getPtrGo before (linkToVector st (st.links.length + 1) lid) basePtr [] es

/-! ## The pass driver (`IdentifyLocals::runOnFunction`) -/

/-- One more than the largest instruction id in use: all emitted instructions
get ids ≥ this bound. -/
def freshBase (f : Func) : Nat := (f.all.map (·.1)).foldr max 0 + 1

/-- `dyn_cast<Instruction>`: the id when the value is an instruction. -/
def instOf : VRef → Option Nat
  | .inst i => some i
  | _ => none

/-- Rewrite one `(id, instruction)` pair, replacing operand `v` by `w`. -/
def substOps (v w : VRef) (p : Nat × Instr) : Nat × Instr :=
  (p.1, { p.2 with ops := p.2.ops.map (fun o => if o = v then w else o) })

/-- `Value::replaceAllUsesWith`: every operand equal to `v` — in attached and
detached instructions alike — becomes `w`. -/
def rauw (g : Func) (v w : VRef) : Func :=
  { g with instrs := g.instrs.map (substOps v w), detached := g.detached.map (substOps v w) }

/-- Recursion fuel large enough for any acyclic descent through the
function's instructions. -/
def fuelOf (f : Func) : Nat := f.instrs.length + f.detached.length + 1

/-- `IdentifyLocals::getStackPointer`: the argument index from the metadata.
(The source trusts the metadata and advances the argument iterator without a
bounds check; the model requires the index to be in range.) -/
def getStackPointer (f : Func) : Option Nat :=
  match f.spArg with
  | none => none
  | some i => if i < f.args.length then some i else none

/-- The analysis pipeline of `runOnFunction`: stack-pointer metadata, then
`readObject` on the stack-pointer argument, then
`LlvmStackFrame::representObject` — which, per `representFrame`, only
accepts a structure root.  This composition describes the source only for
the runs `runOnFunction` marks as defined. -/
def analyzeFrame (f : Func) : Option (SObj × FrameSt × LType) :=
  match getStackPointer f with
  | none => none
  | some sp =>
    match readObject f (fuelOf f) (.arg sp) with
    | none => none
    | some root =>
      match representFrame f (fuelOf f) root with
      | none => none
      | some (st, rootTy) => some (root, st, rootTy)

/-- The leaves (`LlvmStackFrame::getAllObjects`) a run of the pass discovers
and rewrites, with their paths; empty when the analysis fails. -/
def discoveredLeaves (f : Func) : List (List Nat × VRef) :=
  match analyzeFrame f with
  | none => []
  | some (_, st, _) => st.allObjs

/-- The per-leaf rewrite step of `runOnFunction`: look up the leaf's link
(a missing link would make `getPointerToObject` return null and the source
crash; unreachable), choose the insertion point `dyn_cast<Instruction>(offset
value)` — null when the offset value is not an instruction — emit the pointer
path and a `ptrtoint` cast to the offset value's type, and replace all uses
of the offset value with the cast. -/
def applyObj (st : FrameSt) (basePtr : VRef) (es : EmitSt) (po : List Nat × VRef) :
    EmitSt :=
  match st.linkMap.find? (fun p => p.1 = po.1) with
  | none => es
  | some pl =>
    let before := instOf po.2
    let r := getPtr st es pl.2 basePtr before
    let rp := emit r.2 .ptrToInt [r.1] (typeOfVRef r.2.g po.2) before
    ⟨rauw rp.2.g po.2 (.inst rp.1), rp.2.next⟩

/-- The rewrite phase of `runOnFunction` after a successful analysis: an
`alloca` of the root type at the first insertion point of the entry block,
tagged with the "stack frame" metadata, then the per-leaf rewrites in
`allObjects` order. -/
def applyFrame (f : Func) (st : FrameSt) (rootTy : LType) : Func :=
  let aId := freshBase f
  let allocaIns : Nat × Instr := (aId, ⟨.alloca, [], .ptr rootTy⟩)
  let f1 : Func := { f with instrs := allocaIns :: f.instrs,
                            frameTags := f.frameTags ++ [aId] }
  (st.allObjs.foldl (applyObj st (.inst aId)) ⟨f1, aId + 1⟩).g

/-- `IdentifyLocals::runOnFunction`.  A missing stack pointer or a failed
read or representation leaves the function untouched and reports "no change"
(`some (f, false)`); a successful analysis runs the rewrite phase and
reports "changed".  When `readObject` produces a *leaf* root the behaviour
of the source is undefined — `cast<StructureStackObject>(*root)` asserts in
a debug build, and in release the statically selected `Structure` overload
iterates a `fields` vector the `ObjectStackObject` does not have — modelled
as `none`: no defined outcome is ascribed to such a run. -/
def runOnFunction (f : Func) : Option (Func × Bool) :=
  match getStackPointer f with
  | none => some (f, false)
  | some sp =>
    match readObject f (fuelOf f) (.arg sp) with
    | none => some (f, false)
    | some (.obj _) => none
    | some root =>
      match representFrame f (fuelOf f) root with
      | none => some (f, false)
      | some (st, rootTy) => some (applyFrame f st rootTy, true)

/-- The outcome of a run the model marks as defined (the `getD` default is
junk, only read under a definedness fact such as
`runOnFunction f = some (runResult f)`). -/
def runResult (f : Func) : Func × Bool := (runOnFunction f).getD (f, false)

/-! ## Statement helpers -/

/-- Whether an object read result is a structure. -/
def isStrukt : Option SObj → Bool
  | some (.strukt _) => true
  | _ => false

/-- The single-user test of the classifier: the users on which `analyzeGo`
fails — binary operators that are not additions, and additions whose other
operand is not a constant integer. -/
def classifierRejects (base : VRef) (u : Instr) : Bool :=
  match u.kind with
  | .binOther => true
  | .add =>
    match otherOperand base u with
    | some (.cint _) => false
    | _ => true
  | _ => false

/-! ## Concrete example functions

Scenario functions used by the witnesses and counterexamples.  All use a
64-bit `i64` stack pointer as argument 0, designated by the metadata. -/

/-- Scenario S2: one local, `p1 = sp + 0`, cast int-to-ptr and stored an
`i32` (the stored value is argument 1). -/
def F2 : Func :=
  { args := [.int 64, .int 32]
    instrs := [(1, ⟨.add, [.arg 0, .cint 0], .int 64⟩),
               (2, ⟨.intToPtr, [.inst 1], .ptr (.int 32)⟩),
               (3, ⟨.store, [.arg 1, .inst 2], .void⟩)]
    detached := []
    spArg := some 0
    frameTags := [] }

/-- Scenario S1: the stack-pointer argument has no uses at all. -/
def F2c : Func :=
  { args := [.int 64], instrs := [], detached := [], spArg := some 0, frameTags := [] }

/-- A function whose stack pointer has a user outside the classifier's
allow-list (an `other`-kind instruction, e.g. a comparison) next to an
int-to-ptr cast that is loaded as `i32`. -/
def F3 : Func :=
  { args := [.int 64]
    instrs := [(1, ⟨.other, [.arg 0], .int 1⟩),
               (2, ⟨.intToPtr, [.arg 0], .ptr (.int 32)⟩),
               (3, ⟨.load, [.inst 2], .int 32⟩)]
    detached := []
    spArg := some 0
    frameTags := [] }

/-- Scenario S4: `sp+0` loaded as `i32` through a cast, `sp+2` stored an
`i16` through a cast (the stored value is argument 1, an `i16`). -/
def F4 : Func :=
  { args := [.int 64, .int 16]
    instrs := [(1, ⟨.add, [.arg 0, .cint 0], .int 64⟩),
               (2, ⟨.add, [.arg 0, .cint 2], .int 64⟩),
               (3, ⟨.intToPtr, [.inst 1], .ptr (.int 32)⟩),
               (4, ⟨.intToPtr, [.inst 2], .ptr (.int 16)⟩),
               (5, ⟨.load, [.inst 3], .int 32⟩),
               (6, ⟨.store, [.arg 1, .inst 4], .void⟩)]
    detached := []
    spArg := some 0
    frameTags := [] }

/-- The S4 abstract stack tree: two leaves at offsets 0 and 2. -/
def F4root : SObj := .strukt (.cons 0 (.obj (.inst 1)) (.cons 2 (.obj (.inst 2)) .nil))

/-- A function whose stack pointer is itself cast and loaded (an implicit
leaf at offset 0 whose offset value is the argument — not an instruction)
next to a recovered `sp+4` local. -/
def F6 : Func :=
  { args := [.int 64]
    instrs := [(1, ⟨.intToPtr, [.arg 0], .ptr (.int 32)⟩),
               (2, ⟨.load, [.inst 1], .int 32⟩),
               (3, ⟨.add, [.arg 0, .cint 4], .int 64⟩),
               (4, ⟨.intToPtr, [.inst 3], .ptr (.int 32)⟩),
               (5, ⟨.load, [.inst 4], .int 32⟩)]
    detached := []
    spArg := some 0
    frameTags := [] }

/-- A function whose only recovered structure is empty: the single child
`sp+8` fails classification (its user is a non-add binary operator), so the
root structure has no fields, yet it is representable — as an empty packed
struct. -/
def F7 : Func :=
  { args := [.int 64]
    instrs := [(1, ⟨.add, [.arg 0, .cint 8], .int 64⟩),
               (2, ⟨.binOther, [.inst 1, .cint 3], .int 64⟩)]
    detached := []
    spArg := some 0
    frameTags := [] }

/-- A function whose stack pointer has two distinct `add` users with the same
constant offset 4; the first one is cast and stored through, the second has
an unrelated (`other`-kind) user of its own. -/
def F10 : Func :=
  { args := [.int 64, .int 32]
    instrs := [(1, ⟨.add, [.arg 0, .cint 4], .int 64⟩),
               (2, ⟨.add, [.arg 0, .cint 4], .int 64⟩),
               (3, ⟨.intToPtr, [.inst 1], .ptr (.int 32)⟩),
               (4, ⟨.store, [.arg 1, .inst 3], .void⟩),
               (5, ⟨.other, [.inst 2], .int 1⟩)]
    detached := []
    spArg := some 0
    frameTags := [] }

/-! ## Statement helpers for the run-level claims -/

/-- The constant-offset key under which the classifier would record a user,
if any: an addition whose other operand is the constant integer `c` is keyed
by `c`. -/
def addOffsetKey (base : VRef) (u : Instr) : Option Int :=
  match u.kind with
  | .add =>
    match otherOperand base u with
    | some (.cint c) => some c
    | _ => none
  | _ => none

/-- Lookup in the constant-offset map. -/
def mapLookup (k : Int) (m : List (Int × Nat)) : Option Nat :=
  (m.find? (fun p => p.1 = k)).map (·.2)

/-- A value that existed before the rewrite phase and is not a constant: an
argument, or an instruction with id below the fresh-id bound.  All leaf
offset values are of this shape. -/
def OldNonConst (fb : Nat) (v : VRef) : Prop :=
  (∃ i, v = .arg i) ∨ ∃ n, v = .inst n ∧ n < fb

/-- An operand the rewrite phase may put into an emitted instruction: a
freshly created instruction or an integer constant. -/
def NewOrConst (fb next : Nat) (o : VRef) : Prop :=
  (∃ n, o = .inst n ∧ fb ≤ n ∧ n < next) ∨ ∃ k, o = .cint k

/-- Apply a value substitution to the operands of one numbered
instruction. -/
def substMany (σ : VRef → VRef) (p : Nat × Instr) : Nat × Instr :=
  (p.1, { p.2 with ops := p.2.ops.map σ })

/-- The one-point substitution `v ↦ w`. -/
def subst1 (v w : VRef) (o : VRef) : VRef := if o = v then w else o

/-- The child objects of a field list. -/
def fieldObjs : SFields → List SObj
  | .nil => []
  | .cons _ c rest => c :: fieldObjs rest

/-- A stack object whose representation fails in `f` regardless of the
ambient state, path and fuel. -/
def AlwaysFails (f : Func) (o : SObj) : Prop :=
  ∀ gf path st, repObj f gf path st o = none

/-- The invariant maintained by the rewrite phase across the per-leaf steps:
`σ` is the accumulated substitution, `done` the leaf offset values already
replaced.  Old instructions (ids < `fb`) survive in order with `σ` applied to
their operands; every new instruction has a fresh id and only fresh or
constant operands; `σ` moves exactly the processed values, each to a fresh
instruction. -/
structure EmitInv (f : Func) (fb : Nat) (σ : VRef → VRef) (done : List VRef)
    (es : EmitSt) : Prop where
  next_ge : fb ≤ es.next
  args_eq : es.g.args = f.args
  sp_eq : es.g.spArg = f.spArg
  old_instrs : es.g.instrs.filter (fun p => p.1 < fb) = f.instrs.map (substMany σ)
  old_detached : es.g.detached.filter (fun p => p.1 < fb) = f.detached.map (substMany σ)
  new_ops : ∀ p ∈ es.g.all, fb ≤ p.1 → p.1 < es.next ∧ ∀ o ∈ p.2.ops, NewOrConst fb es.next o
  sigma_spec : ∀ x, σ x = x ∨ ∃ n, σ x = .inst n ∧ fb ≤ n ∧ n < es.next
  sigma_id : ∀ x, x ∉ done → σ x = x
  killed : ∀ v ∈ done, ∃ n, σ v = .inst n ∧ fb ≤ n
  done_old : ∀ v ∈ done, OldNonConst fb v

/-- A frame state has a link registered for an object (path). -/
def HasLink (st : FrameSt) (path : List Nat) : Prop :=
  (st.linkMap.find? (fun q => q.1 = path)).isSome = true

/-! # Theorems -/

/-! ## Padding (claim C4) -/

/-- The greedy filler is a sublist of the integer types of the tried sizes,
in order: each size is emitted at most once, in descending order. -/
theorem padIntsAux_sublist (sizes : List Nat) (d : Nat) :
    (padIntsAux sizes d).Sublist (sizes.map (fun i => LType.int (i * 8))) := by
  induction sizes generalizing d with
  | nil => simp [padIntsAux]
  | cons i rest ih =>
    simp only [padIntsAux, List.map_cons]
    split
    · exact List.Sublist.cons₂ _ (ih _)
    · exact List.Sublist.cons _ (ih _)

/-- `padBytes` distributes over append. -/
theorem padBytes_append (a b : List LType) : padBytes (a ++ b) = padBytes a + padBytes b := by
  simp [padBytes]

/-- For differences up to 15 the greedy filler covers the difference
exactly (binary decomposition over 8, 4, 2, 1). -/
theorem padBytes_padIntsAux_small (d : Nat) (hd : d ≤ 15) :
    padBytes (padIntsAux [8, 4, 2, 1] d) = d := by
  interval_cases d <;> decide

/-- C4, amended.  Every padding sequence for a byte gap `d > 0` consists of,
in order, zero or one `[d/8 x i64]` array — present exactly when `d > 16` —
followed by at most one integer field of each of the sizes 8, 4, 2, 1 bytes
in descending order; the store sizes of the emitted fields sum to exactly `d`
for every `d ≠ 16`, while at `d = 16` they sum to 15 (the array case does not
fire and the four fillers cover only 8+4+2+1 bytes), leaving one byte
unpadded. -/
theorem claim4_padding_amended (d : Nat) (hd : 0 < d) :
    (padIntsAux [8, 4, 2, 1] (if 16 < d then d - d / 8 * 8 else d)).Sublist
        [LType.int 64, LType.int 32, LType.int 16, LType.int 8] ∧
    pad d = (if 16 < d then [LType.arr (LType.int 64) (d / 8)] else []) ++
        padIntsAux [8, 4, 2, 1] (if 16 < d then d - d / 8 * 8 else d) ∧
    padBytes (pad d) = if d = 16 then 15 else d := by
  refine ⟨by simpa using padIntsAux_sublist [8, 4, 2, 1] (if 16 < d then d - d / 8 * 8 else d),
    ?_, ?_⟩
  · by_cases h : 16 < d <;> simp [pad, h]
  · by_cases h : 16 < d
    · have h16 : d ≠ 16 := by omega
      have hb : padBytes (padIntsAux [8, 4, 2, 1] (d - d / 8 * 8)) = d - d / 8 * 8 :=
        padBytes_padIntsAux_small _ (by omega)
      simp only [pad, if_pos h, h16, if_false, padBytes, List.map_cons, List.sum_cons,
        storeSize] at hb ⊢
      rw [hb]
      have := Nat.div_mul_le_self d 8
      omega
    · have h1 : d ≤ 16 := by omega
      interval_cases d <;> decide

/-- C4, counterexample at `d = 16`: the claim's "the store sizes of the
emitted padding fields sum to exactly d" fails — `pad 16` covers 15 bytes. -/
theorem claim4_padding_cex : padBytes (pad 16) = 15 ∧ padBytes (pad 16) ≠ 16 := by decide

/-- C4, witness for the amended statement at `d = 20`. -/
theorem claim4_padding_witness :
    0 < 20 ∧
    ((padIntsAux [8, 4, 2, 1] (if 16 < 20 then 20 - 20 / 8 * 8 else 20)).Sublist
        [LType.int 64, LType.int 32, LType.int 16, LType.int 8] ∧
     pad 20 = (if 16 < 20 then [LType.arr (LType.int 64) (20 / 8)] else []) ++
        padIntsAux [8, 4, 2, 1] (if 16 < 20 then 20 - 20 / 8 * 8 else 20) ∧
     padBytes (pad 20) = if 20 = 16 then 15 else 20) :=
  ⟨by decide, claim4_padding_amended 20 (by decide)⟩

/-! ## Window insertion (claim C5) -/

/-- C5, amended.  A candidate access is accepted into the window iff the
window is empty or the candidate's offset is strictly below the end offset of
the *most recently inserted* record (`accesses.back()`), not the running
maximum end offset over all records in the window. -/
theorem claim5_insert_amended (w : List TypedAccess) (a : TypedAccess) :
    (winInsert w a).isSome = true ↔
      w = [] ∨ ∃ b, w.getLast? = some b ∧ a.offset < b.endOff := by
  unfold winInsert
  cases h : w.getLast? with
  | none =>
    have hw : w = [] := by
      cases w with
      | nil => rfl
      | cons x xs => simp [List.getLast?_eq_none_iff] at h
    simp [hw]
  | some b =>
    have hw : w ≠ [] := by
      intro he
      rw [he] at h
      simp at h
    dsimp only
    constructor
    · intro hs
      by_cases hle : b.endOff ≤ a.offset
      · rw [if_pos hle] at hs
        simp at hs
      · exact Or.inr ⟨b, rfl, by omega⟩
    · rintro (he | ⟨b', hb', hlt⟩)
      · exact absurd he hw
      · rw [Option.some_inj] at hb'
        subst hb'
        rw [if_neg (by omega)]
        rfl

/-- C5, counterexample.  A window legitimately built by two accepted
insertions — `[0,8)` then `[1,3)` — refuses a record at offset 5 even though
5 is strictly below the running maximum end offset 8 of the window, because
the comparison uses only the last inserted record (end offset 3). -/
theorem claim5_insert_cex :
    winInsert [] (⟨0, [0], .int 64⟩ : TypedAccess) = some [⟨0, [0], .int 64⟩] ∧
    winInsert [⟨0, [0], .int 64⟩] ⟨1, [1], .int 16⟩ =
      some [⟨0, [0], .int 64⟩, ⟨1, [1], .int 16⟩] ∧
    winInsert [⟨0, [0], .int 64⟩, ⟨1, [1], .int 16⟩] ⟨5, [2], .int 8⟩ = none ∧
    (∃ b ∈ [(⟨0, [0], .int 64⟩ : TypedAccess), ⟨1, [1], .int 16⟩],
      (⟨5, [2], .int 8⟩ : TypedAccess).offset < b.endOff) := by decide

/-! ## The classifier's allow-list (claim C3) -/

/-- The classifier loop fails iff some user is rejected: a non-add binary
operator, or an addition whose other operand is not a constant integer. -/
theorem analyzeGo_none_iff (base : VRef) (l : List (Nat × Instr)) (hc : Bool)
    (m : List (Int × Nat)) :
    analyzeGo base l hc m = none ↔ ∃ p ∈ l, classifierRejects base p.2 = true := by
  induction l generalizing hc m with
  | nil => simp [analyzeGo]
  | cons p rest ih =>
    obtain ⟨uid, u⟩ := p
    cases hk : u.kind with
    | add =>
      cases ho : otherOperand base u with
      | none => simp [analyzeGo, hk, ho, classifierRejects]
      | some v =>
        cases v <;> simp [analyzeGo, hk, ho, classifierRejects, ih]
    | binOther => simp [analyzeGo, hk, classifierRejects]
    | _ => simp [analyzeGo, hk, classifierRejects, ih]

/-- C3, amended.  The classifier fails iff some user of the base is a binary
operator other than an addition, or an addition whose other operand is not a
constant integer.  Users of any other kind — including comparisons, returns,
loads, stores, calls and phis — are *ignored* by the classifier rather than
failing it (they can still doom the enclosing leaf later, but only through an
empty witnessed-type set). -/
theorem claim3_allowlist_amended (f : Func) (base : VRef) :
    analyzeObject f base = none ↔
      ∃ p ∈ usersOf f base, classifierRejects base p.2 = true := by
  unfold analyzeObject
  exact analyzeGo_none_iff base (usersOf f base) false []

/-- C3, counterexample.  A base with an out-of-allow-list user (an
`other`-kind instruction, e.g. a comparison): the classifier does *not*
fail — it succeeds while ignoring the user.  (What happens to `F3` further
downstream is a separate question: with no addition users its root is a
leaf, on which the driver's behaviour is undefined, see C2.) -/
theorem claim3_allowlist_cex :
    (1, (⟨.other, [.arg 0], .int 1⟩ : Instr)) ∈ usersOf F3 (.arg 0) ∧
    classifierRejects (.arg 0) ⟨.other, [.arg 0], .int 1⟩ = false ∧
    (analyzeObject F3 (.arg 0)).isSome = true := by decide

/-! ## The empty frame (claim C2) -/

/-- C2: the code diverges from the claim.  For every function whose
designated stack-pointer argument has no uses, the object `readObject`
builds at the root is a *leaf* `Object` — not the always-`Structure` root
the data model requires (a structure arises only when at least one constant
offset is recorded).  The driver then performs the unchecked
`cast<StructureStackObject>(*root)` on that leaf: a debug build asserts, a
release build runs the statically selected `Structure` overload over a
`fields` vector the object does not have.  The run's behaviour is therefore
undefined (`runOnFunction f = none`), not the claimed clean "no change with
the IR untouched". -/
theorem claim2_leaf_root_bug (f : Func) (sp : Nat)
    (h1 : getStackPointer f = some sp) (h2 : usersOf f (.arg sp) = []) :
    readObject f (fuelOf f) (.arg sp) = some (.obj (.arg sp)) ∧
    isStrukt (readObject f (fuelOf f) (.arg sp)) = false ∧
    runOnFunction f = none := by
  have ha : analyzeObject f (.arg sp) = some ⟨false, []⟩ := by
    unfold analyzeObject
    rw [h2]
    rfl
  have hr : readObject f (fuelOf f) (.arg sp) = some (.obj (.arg sp)) := by
    unfold fuelOf
    rw [readObject, ha]
  refine ⟨hr, by rw [hr]; rfl, ?_⟩
  unfold runOnFunction
  rw [h1]
  dsimp only
  rw [hr]

/-- C2, witness: the concrete use-less stack pointer `F2c`. -/
theorem claim2_leaf_root_bug_witness :
    readObject F2c (fuelOf F2c) (.arg 0) = some (.obj (.arg 0)) ∧
    isStrukt (readObject F2c (fuelOf F2c) (.arg 0)) = false ∧
    runOnFunction F2c = none :=
  claim2_leaf_root_bug F2c 0 (by decide) (by decide)

/-! ## The S4 overlapping window (claim C1) -/

/-- C1, amended.  For every function (64-bit pointers, `i32` = 4 bytes) whose
stack pointer has exactly two constant-offset uses, `sp+0` whose int-to-ptr
cast is loaded as `i32` and `sp+2` whose int-to-ptr cast is stored an `i16`,
the type synthesizer reduces the overlapping window covering bytes 0..4 to
the packed struct `{ i16, i16 }` — the sort is by *descending* offset, so the
`i16` access enters the deque intact and the `i32` access contributes a
single two-byte front pad `i16` — with the `i32` leaf at gep index 0 (its
link expects `i32` against an `i16` field, which the pointer-path builder
realises with a bitcast to `i32*`) and the `i16` leaf at gep index 1.  The
root type is the packed struct wrapping this window. -/
theorem claim1_s4_amended (f : Func) (s a1 a2 c1 c2 l1 s2 : Nat) (v : VRef)
    (hu0 : usersOf f (.arg s) = [(a1, ⟨.add, [.arg s, .cint 0], .int 64⟩),
                                 (a2, ⟨.add, [.arg s, .cint 2], .int 64⟩)])
    (hu1 : usersOf f (.inst a1) = [(c1, ⟨.intToPtr, [.inst a1], .ptr (.int 32)⟩)])
    (hc1 : usersOf f (.inst c1) = [(l1, ⟨.load, [.inst c1], .int 32⟩)])
    (hl1 : usersOf f (.inst l1) = [])
    (hu2 : usersOf f (.inst a2) = [(c2, ⟨.intToPtr, [.inst a2], .ptr (.int 16)⟩)])
    (hc2 : usersOf f (.inst c2) = [(s2, ⟨.store, [v, .inst c2], .void⟩)])
    (hv : typeOfVRef f v = .int 16)
    (rfuel gfuel : Nat) :
    readObject f (rfuel + 2) (.arg s) =
      some (.strukt (.cons 0 (.obj (.inst a1)) (.cons 2 (.obj (.inst a2)) .nil))) ∧
    representFrame f (gfuel + 1)
        (.strukt (.cons 0 (.obj (.inst a1)) (.cons 2 (.obj (.inst a2)) .nil))) =
      some (⟨[⟨none, some (0, .strukt (.ofList [.strukt (.ofList [.int 16, .int 16])]))⟩,
              ⟨some 0, some (0, .strukt (.ofList [.int 16, .int 16]))⟩,
              ⟨some 1, some (0, .int 32)⟩,
              ⟨some 1, some (1, .int 16)⟩],
             [([], 0), ([0], 2), ([1], 3)],
             [([0], .int 32), ([1], .int 16),
              ([], .strukt (.ofList [.strukt (.ofList [.int 16, .int 16])]))],
             [([0], .inst a1), ([1], .inst a2)]⟩,
            .strukt (.ofList [.strukt (.ofList [.int 16, .int 16])])) := by
  constructor
  · have ha0 : analyzeObject f (.arg s) = some ⟨false, [(0, a1), (2, a2)]⟩ := by
      unfold analyzeObject
      rw [hu0]
      simp [analyzeGo, otherOperand, mapInsert]
    have ha1 : analyzeObject f (.inst a1) = some ⟨true, []⟩ := by
      unfold analyzeObject
      rw [hu1]
      simp [analyzeGo]
    have ha2 : analyzeObject f (.inst a2) = some ⟨true, []⟩ := by
      unfold analyzeObject
      rw [hu2]
      simp [analyzeGo]
    rw [readObject, ha0]
    simp only [readFields, readObject, ha1, ha2, SFields.snoc]
    rfl
  · have hg1 : getUnionTypes f (gfuel + 1) (.inst a1) = [.int 32] := by
      unfold getUnionTypes
      rw [hu1]
      simp [getCastTypes, hc1, hl1, insertUnique, isIntTy]
    have hg2 : getUnionTypes f (gfuel + 1) (.inst a2) = [.int 16] := by
      unfold getUnionTypes
      rw [hu2]
      simp [getCastTypes, hc2, insertUnique, hv]
    unfold representFrame
    simp only [repObj, repFields, hg1, hg2]
    rfl

/-- C1, counterexample to the claim as stated: at the S4 window (an `i32`
access at offset 0 and an `i16` access at offset 2), `reduce` emits the
packed struct `{ i16, i16 }` — not `{ i8, i8, i16 }` — and maps the `i16`
leaf to gep index 1, not 2 (the `i32` leaf is indeed at gep index 0). -/
theorem claim1_s4_cex :
    reduce [⟨0, [0], .int 32⟩, ⟨2, [1], .int 16⟩] =
      (2, some (.strukt (.ofList [.int 16, .int 16])), [([1], 1), ([0], 0)]) ∧
    (reduce [⟨0, [0], .int 32⟩, ⟨2, [1], .int 16⟩]).2.1 ≠
      some (.strukt (.ofList [.int 8, .int 8, .int 16])) ∧
    gepGet [1] (reduce [⟨0, [0], .int 32⟩, ⟨2, [1], .int 16⟩]).2.2 ≠ some 2 := by decide

/-- C1, witness: the amended statement instantiated at the concrete S4
function `F4`. -/
theorem claim1_s4_witness :
    readObject F4 (5 + 2) (.arg 0) =
      some (.strukt (.cons 0 (.obj (.inst 1)) (.cons 2 (.obj (.inst 2)) .nil))) ∧
    representFrame F4 (6 + 1)
        (.strukt (.cons 0 (.obj (.inst 1)) (.cons 2 (.obj (.inst 2)) .nil))) =
      some (⟨[⟨none, some (0, .strukt (.ofList [.strukt (.ofList [.int 16, .int 16])]))⟩,
              ⟨some 0, some (0, .strukt (.ofList [.int 16, .int 16]))⟩,
              ⟨some 1, some (0, .int 32)⟩,
              ⟨some 1, some (1, .int 16)⟩],
             [([], 0), ([0], 2), ([1], 3)],
             [([0], .int 32), ([1], .int 16),
              ([], .strukt (.ofList [.strukt (.ofList [.int 16, .int 16])]))],
             [([0], .inst 1), ([1], .inst 2)]⟩,
            .strukt (.ofList [.strukt (.ofList [.int 16, .int 16])])) :=
  claim1_s4_amended F4 0 1 2 3 4 5 6 (.arg 1) (by decide) (by decide) (by decide)
    (by decide) (by decide) (by decide) (by decide) 5 6

/-! ## Freshness and list plumbing for the rewrite phase -/

/-- Every element of a list is bounded by its `foldr max 0`. -/
theorem le_foldr_max (l : List Nat) (x : Nat) (hx : x ∈ l) : x ≤ l.foldr max 0 := by
  induction l with
  | nil => cases hx
  | cons a rest ih =>
    rcases List.mem_cons.mp hx with rfl | h
    · exact le_max_left _ _
    · exact le_trans (ih h) (le_max_right _ _)

/-- Ids of existing instructions are below `freshBase`. -/
theorem freshBase_bound (f : Func) (p : Nat × Instr) (hp : p ∈ f.all) :
    p.1 < freshBase f := by
  have : p.1 ∈ f.all.map (·.1) := List.mem_map_of_mem _ hp
  have := le_foldr_max _ _ this
  unfold freshBase
  omega

/-- Ids of a value's users are below `freshBase`. -/
theorem usersOf_id_lt (f : Func) (v : VRef) (p : Nat × Instr) (hp : p ∈ usersOf f v) :
    p.1 < freshBase f :=
  freshBase_bound f p (List.mem_of_mem_filter hp)

/-- Filtering by `P` factors through a filter by any `Q` that `P` implies on
the list's elements. -/
theorem filter_through {α : Type} (l : List α) (P Q : α → Bool)
    (h : ∀ x ∈ l, P x = true → Q x = true) : (l.filter Q).filter P = l.filter P := by
  induction l with
  | nil => rfl
  | cons a rest ih =>
    have hrest : ∀ x ∈ rest, P x = true → Q x = true := fun x hx => h x (by simp [hx])
    by_cases hp : P a = true
    · have hq : Q a = true := h a (by simp) hp
      simp [List.filter_cons, hp, hq, ih hrest]
    · have hp' : P a = false := by simpa using hp
      by_cases hq : Q a = true <;> simp [List.filter_cons, hp', hq, ih hrest]

/-- Filtering a mapped list. -/
theorem filter_of_map {α β : Type} (l : List α) (g : α → β) (P : β → Bool) :
    (l.map g).filter P = (l.filter (fun x => P (g x))).map g := by
  induction l with
  | nil => rfl
  | cons a rest ih =>
    by_cases hp : P (g a) = true <;>
      simp [List.filter_cons, hp, ih]

/-- Inserting an element that a predicate rejects does not change the
filtered list. -/
theorem insertBeforeId_filter (l : List (Nat × Instr)) (t : Nat) (e : Nat × Instr)
    (P : Nat × Instr → Bool) (he : P e = false) :
    (insertBeforeId l t e).filter P = l.filter P := by
  induction l with
  | nil => simp [insertBeforeId, List.filter_cons, he]
  | cons x rest ih =>
    by_cases hx : x.1 = t
    · simp [insertBeforeId, hx, List.filter_cons, he]
    · simp only [insertBeforeId, if_neg hx]
      simp [List.filter_cons, ih]

/-- Membership in `insertBeforeId`. -/
theorem mem_insertBeforeId (l : List (Nat × Instr)) (t : Nat) (e p : Nat × Instr)
    (hp : p ∈ insertBeforeId l t e) : p = e ∨ p ∈ l := by
  induction l with
  | nil => simpa [insertBeforeId] using hp
  | cons x rest ih =>
    by_cases hx : x.1 = t
    · simp only [insertBeforeId, if_pos hx] at hp
      rcases List.mem_cons.mp hp with rfl | hp'
      · exact Or.inl rfl
      · exact Or.inr hp'
    · simp only [insertBeforeId, if_neg hx] at hp
      rcases List.mem_cons.mp hp with rfl | hp'
      · exact Or.inr (List.mem_cons_self _ _)
      · rcases ih hp' with h' | h'
        · exact Or.inl h'
        · exact Or.inr (List.mem_cons_of_mem _ h')

/-- `NewOrConst` is monotone in the fresh-id bound. -/
theorem NewOrConst_mono {fb n n' : Nat} {o : VRef} (h : NewOrConst fb n o) (hn : n ≤ n') :
    NewOrConst fb n' o := by
  rcases h with ⟨m, rfl, h1, h2⟩ | ⟨k, rfl⟩
  · exact Or.inl ⟨m, rfl, h1, by omega⟩
  · exact Or.inr ⟨k, rfl⟩

/-- An `OldNonConst` value is never `NewOrConst`. -/
theorem OldNonConst.not_new {fb n : Nat} {v : VRef} (h : OldNonConst fb v)
    (h' : NewOrConst fb n v) : False := by
  rcases h with ⟨i, rfl⟩ | ⟨m, rfl, hm⟩ <;>
    rcases h' with ⟨m', he, h1, h2⟩ | ⟨k, he⟩ <;> simp_all <;> omega

/-- Creating one instruction preserves the rewrite invariant; the new id is
the old `next`. -/
theorem emit_inv (f : Func) (fb : Nat) (σ : VRef → VRef) (done : List VRef) (es : EmitSt)
    (inv : EmitInv f fb σ done es) (k : InstKind) (ops : List VRef) (ty : LType)
    (before : Option Nat) (hops : ∀ o ∈ ops, NewOrConst fb es.next o) :
    EmitInv f fb σ done (emit es k ops ty before).2 ∧
    (emit es k ops ty before).1 = es.next ∧
    (emit es k ops ty before).2.next = es.next + 1 := by
  have hnotold : ¬ (es.next < fb) := by
    have := inv.next_ge
    omega
  refine ⟨?_, ?_, ?_⟩
  · cases before with
    | none =>
      simp only [emit]
      refine ⟨Nat.le_succ_of_le inv.next_ge, inv.args_eq, inv.sp_eq, inv.old_instrs, ?_, ?_,
        fun x => ?_, inv.sigma_id, inv.killed, inv.done_old⟩
      · rw [List.filter_append]
        simp only [List.filter_cons, List.filter_nil, decide_eq_true_eq, hnotold, if_false]
        simp [inv.old_detached]
      · intro p hp hfb
        simp only [Func.all] at hp
        rcases List.mem_append.mp hp with h | h
        · have := inv.new_ops p (by simp [Func.all, h]) hfb
          exact ⟨Nat.lt_succ_of_lt this.1, fun o ho => NewOrConst_mono (this.2 o ho) (Nat.le_succ _)⟩
        · rcases List.mem_append.mp h with h' | h'
          · have := inv.new_ops p (by simp [Func.all, h']) hfb
            exact ⟨Nat.lt_succ_of_lt this.1, fun o ho => NewOrConst_mono (this.2 o ho) (Nat.le_succ _)⟩
          · have hpe : p = (es.next, ⟨k, ops, ty⟩) := by simpa using h'
            subst hpe
            exact ⟨Nat.lt_succ_self _, fun o ho => NewOrConst_mono (hops o ho) (Nat.le_succ _)⟩
      · rcases inv.sigma_spec x with h | ⟨n, h1, h2, h3⟩
        · exact Or.inl h
        · exact Or.inr ⟨n, h1, h2, Nat.lt_succ_of_lt h3⟩
    | some t =>
      simp only [emit]
      refine ⟨Nat.le_succ_of_le inv.next_ge, inv.args_eq, inv.sp_eq, ?_, inv.old_detached, ?_,
        fun x => ?_, inv.sigma_id, inv.killed, inv.done_old⟩
      · rw [insertBeforeId_filter _ _ _ _ (by simpa using hnotold)]
        exact inv.old_instrs
      · intro p hp hfb
        simp only [Func.all] at hp
        rcases List.mem_append.mp hp with h | h
        · rcases mem_insertBeforeId _ _ _ _ h with rfl | h'
          · exact ⟨Nat.lt_succ_self _, fun o ho => NewOrConst_mono (hops o ho) (Nat.le_succ _)⟩
          · have := inv.new_ops p (by simp [Func.all, h']) hfb
            exact ⟨Nat.lt_succ_of_lt this.1, fun o ho => NewOrConst_mono (this.2 o ho) (Nat.le_succ _)⟩
        · have := inv.new_ops p (by simp [Func.all, h]) hfb
          exact ⟨Nat.lt_succ_of_lt this.1, fun o ho => NewOrConst_mono (this.2 o ho) (Nat.le_succ _)⟩
      · rcases inv.sigma_spec x with h | ⟨n, h1, h2, h3⟩
        · exact Or.inl h
        · exact Or.inr ⟨n, h1, h2, Nat.lt_succ_of_lt h3⟩
  · cases before <;> rfl
  · cases before <;> rfl

/-- The pointer-path emission loop preserves the rewrite invariant; the
returned pointer is a fresh instruction and `next` is monotone. -/
theorem getPtrGo_inv (f : Func) (fb : Nat) (σ : VRef → VRef) (done : List VRef)
    (before : Option Nat) (chain : List (Int × LType)) :
    ∀ (result : VRef) (gi : List Int) (es : EmitSt), EmitInv f fb σ done es →
    (∃ n, result = .inst n ∧ fb ≤ n ∧ n < es.next) →
    EmitInv f fb σ done (getPtrGo before chain result gi es).2 ∧
    (∃ n, (getPtrGo before chain result gi es).1 = .inst n ∧ fb ≤ n ∧
      n < (getPtrGo before chain result gi es).2.next) ∧
    es.next ≤ (getPtrGo before chain result gi es).2.next := by
  induction chain with
  | nil =>
    intro result gi es inv hres
    rcases hres with ⟨n0, rfl, hn0a, hn0b⟩
    simp only [getPtrGo]
    split
    · have hops1 : ∀ o ∈ (VRef.inst n0 :: gi.map VRef.cint), NewOrConst fb es.next o := by
        intro o ho
        rcases List.mem_cons.mp ho with rfl | ho'
        · exact Or.inl ⟨n0, rfl, hn0a, hn0b⟩
        · rcases List.mem_map.mp ho' with ⟨j, _, rfl⟩
          exact Or.inr ⟨j, rfl⟩
      have he1 := emit_inv f fb σ done es inv .gep (VRef.inst n0 :: gi.map VRef.cint)
        (.ptr ((getIndexedType (typeOfVRef es.g (VRef.inst n0)) gi).getD .void)) before hops1
      refine ⟨he1.1, ⟨_, rfl, ?_, ?_⟩, ?_⟩
      · rw [he1.2.1]
        exact inv.next_ge
      · rw [he1.2.1, he1.2.2]
        omega
      · rw [he1.2.2]
        omega
    · exact ⟨inv, ⟨n0, rfl, hn0a, hn0b⟩, le_refl _⟩
  | cons hd rest ih =>
    intro result gi es inv hres
    obtain ⟨i, expected⟩ := hd
    rcases hres with ⟨n0, rfl, hn0a, hn0b⟩
    simp only [getPtrGo]
    split
    · exact ih _ (gi ++ [i]) es inv ⟨n0, rfl, hn0a, hn0b⟩
    · have hops1 : ∀ o ∈ (VRef.inst n0 :: (gi ++ [i]).map VRef.cint),
          NewOrConst fb es.next o := by
        intro o ho
        rcases List.mem_cons.mp ho with rfl | ho'
        · exact Or.inl ⟨n0, rfl, hn0a, hn0b⟩
        · rcases List.mem_map.mp ho' with ⟨j, _, rfl⟩
          exact Or.inr ⟨j, rfl⟩
      have he1 := emit_inv f fb σ done es inv .gep (VRef.inst n0 :: (gi ++ [i]).map VRef.cint)
        (.ptr ((getIndexedType (typeOfVRef es.g (VRef.inst n0)) (gi ++ [i])).getD .void))
        before hops1
      set r1 := emit es .gep (VRef.inst n0 :: (gi ++ [i]).map VRef.cint)
        (.ptr ((getIndexedType (typeOfVRef es.g (VRef.inst n0)) (gi ++ [i])).getD .void))
        before with hr1
      have hops2 : ∀ o ∈ [VRef.inst r1.1], NewOrConst fb r1.2.next o := by
        intro o ho
        rcases List.mem_cons.mp ho with rfl | ho'
        · refine Or.inl ⟨r1.1, rfl, ?_, ?_⟩
          · rw [he1.2.1]
            exact inv.next_ge
          · rw [he1.2.1, he1.2.2]
            omega
        · cases ho'
      have he2 := emit_inv f fb σ done r1.2 he1.1 .bitcast [VRef.inst r1.1] (.ptr expected)
        before hops2
      set r2 := emit r1.2 .bitcast [VRef.inst r1.1] (.ptr expected) before with hr2
      have hres2 : ∃ n, (VRef.inst r2.1 : VRef) = .inst n ∧ fb ≤ n ∧ n < r2.2.next := by
        refine ⟨r2.1, rfl, ?_, ?_⟩
        · rw [he2.2.1]
          have := inv.next_ge
          have := he1.2.2
          omega
        · rw [he2.2.1, he2.2.2]
          omega
      have hrec := ih (.inst r2.1) [0] r2.2 he2.1 hres2
      refine ⟨hrec.1, hrec.2.1, ?_⟩
      have h1 := he1.2.2
      have h2 := he2.2.2
      have h3 := hrec.2.2
      omega

/-- `substOps` after an earlier substitution is the composite substitution. -/
theorem substOps_substMany (v w : VRef) (σ : VRef → VRef) (p : Nat × Instr) :
    substOps v w (substMany σ p) = substMany (fun x => subst1 v w (σ x)) p := by
  simp [substOps, substMany, subst1, List.map_map, Function.comp]

/-- `substMany` with the identity is the identity. -/
theorem substMany_id (p : Nat × Instr) : substMany (fun x => x) p = p := by
  obtain ⟨id, k, ops, ty⟩ := p
  simp [substMany]

/-- Replacing all uses of a processed leaf value preserves the rewrite
invariant, with the value appended to the processed list and the one-point
substitution composed onto `σ`. -/
theorem rauw_inv (f : Func) (fb : Nat) (σ : VRef → VRef) (done : List VRef) (es : EmitSt)
    (inv : EmitInv f fb σ done es) (v : VRef) (hv : OldNonConst fb v) (pid : Nat)
    (hpid1 : fb ≤ pid) (hpid2 : pid < es.next) :
    EmitInv f fb (fun x => subst1 v (.inst pid) (σ x)) (done ++ [v])
      ⟨rauw es.g v (.inst pid), es.next⟩ := by
  have hvnotnew : ∀ n, fb ≤ n → v ≠ VRef.inst n := by
    intro n hn he
    exact OldNonConst.not_new hv (Or.inl ⟨n, he, hn, Nat.lt_succ_self n⟩)
  have hfilt : ∀ l : List (Nat × Instr),
      ((l.map (substOps v (.inst pid))).filter fun p => p.1 < fb) =
        (l.filter fun p => p.1 < fb).map (substOps v (.inst pid)) := by
    intro l
    rw [filter_of_map]
    congr 1
  refine ⟨inv.next_ge, ?_, ?_, ?_, ?_, ?_, fun x => ?_, ?_, ?_, ?_⟩
  · simpa [rauw] using inv.args_eq
  · simpa [rauw] using inv.sp_eq
  · show ((es.g.instrs.map (substOps v (.inst pid))).filter fun p => p.1 < fb) = _
    rw [hfilt, inv.old_instrs, List.map_map]
    exact List.map_congr_left (fun p _ => substOps_substMany v (.inst pid) σ p)
  · show ((es.g.detached.map (substOps v (.inst pid))).filter fun p => p.1 < fb) = _
    rw [hfilt, inv.old_detached, List.map_map]
    exact List.map_congr_left (fun p _ => substOps_substMany v (.inst pid) σ p)
  · intro p hp hfb
    have hall : p ∈ es.g.all.map (substOps v (.inst pid)) := by
      simpa [Func.all, rauw, List.map_append] using hp
    rcases List.mem_map.mp hall with ⟨q, hq, rfl⟩
    have hnew := inv.new_ops q hq hfb
    refine ⟨hnew.1, ?_⟩
    intro o ho
    rcases List.mem_map.mp ho with ⟨o0, ho0, rfl⟩
    have hnoc := hnew.2 o0 ho0
    have : o0 ≠ v := by
      intro he
      subst he
      exact OldNonConst.not_new hv hnoc
    simpa [subst1, this] using hnoc
  · by_cases hx : σ x = v
    · simp only [subst1, hx, if_pos rfl]
      exact Or.inr ⟨pid, rfl, hpid1, hpid2⟩
    · simp only [subst1, if_neg hx]
      exact inv.sigma_spec x
  · intro x hx
    have hx1 : x ∉ done := fun h => hx (List.mem_append_left _ h)
    have hx2 : x ≠ v := fun h => hx (by simp [h])
    rw [inv.sigma_id x hx1]
    simp [subst1, hx2]
  · intro w hw
    rcases List.mem_append.mp hw with hw1 | hw2
    · obtain ⟨n, hn, hfbn⟩ := inv.killed w hw1
      have : σ w ≠ v := by
        rw [hn]
        exact (hvnotnew n hfbn ∘ Eq.symm)
      rw [subst1, if_neg this, hn]
      exact ⟨n, rfl, hfbn⟩
    · have hwv : w = v := by simpa using hw2
      subst hwv
      by_cases hsv : σ w = w
      · rw [subst1, hsv, if_pos rfl]
        exact ⟨pid, rfl, hpid1⟩
      · rcases inv.sigma_spec w with h | ⟨n, hn, hfbn, _⟩
        · exact absurd h hsv
        · have : σ w ≠ w := hsv
          rw [subst1, hn, if_neg ?_]
          · exact ⟨n, rfl, hfbn⟩
          · intro he
            exact hvnotnew n hfbn he.symm
  · intro w hw
    rcases List.mem_append.mp hw with hw1 | hw2
    · exact inv.done_old w hw1
    · have : w = v := by simpa using hw2
      subst this
      exact hv

/-- One per-leaf rewrite step preserves the invariant, marking the leaf's
offset value as processed (its link is present for every represented
frame — see the covering lemmas). -/
theorem applyObj_inv (f : Func) (fb : Nat) (σ : VRef → VRef) (done : List VRef)
    (st : FrameSt) (basePtr : VRef) (es : EmitSt) (po : List Nat × VRef)
    (inv : EmitInv f fb σ done es)
    (hbase : ∃ n, basePtr = .inst n ∧ fb ≤ n ∧ n < es.next)
    (hold : OldNonConst fb po.2)
    (hhit : (st.linkMap.find? (fun q => q.1 = po.1)).isSome = true) :
    ∃ σ', EmitInv f fb σ' (done ++ [po.2]) (applyObj st basePtr es po) ∧
      es.next ≤ (applyObj st basePtr es po).next := by
  unfold applyObj
  cases hf : st.linkMap.find? (fun q => q.1 = po.1) with
  | none =>
    rw [hf] at hhit
    simp at hhit
  | some pl =>
    simp only [getPtr]
    have hg := getPtrGo_inv f fb σ done (instOf po.2)
      (linkToVector st (st.links.length + 1) pl.2) basePtr [] es inv hbase
    set r := getPtrGo (instOf po.2) (linkToVector st (st.links.length + 1) pl.2)
      basePtr [] es with hr
    obtain ⟨inv1, hres1, hmono1⟩ := hg
    have hops : ∀ o ∈ [r.1], NewOrConst fb r.2.next o := by
      intro o ho
      have : o = r.1 := by simpa using ho
      subst this
      obtain ⟨n, hn, hn1, hn2⟩ := hres1
      rw [hn]
      exact Or.inl ⟨n, rfl, hn1, hn2⟩
    have he := emit_inv f fb σ done r.2 inv1 .ptrToInt [r.1] (typeOfVRef r.2.g po.2)
      (instOf po.2) hops
    set rp := emit r.2 .ptrToInt [r.1] (typeOfVRef r.2.g po.2) (instOf po.2) with hrp
    have h0 := inv.next_ge
    have h1 := he.2.1
    have h2 := he.2.2
    have hrw := rauw_inv f fb σ done rp.2 he.1 po.2 hold rp.1 (by omega) (by omega)
    exact ⟨_, hrw, by omega⟩

/-- The per-leaf rewrite fold preserves the invariant, appending every
processed offset value. -/
theorem applyList_inv (f : Func) (fb : Nat) (st : FrameSt) (basePtr : VRef)
    (objs : List (List Nat × VRef)) :
    ∀ (σ : VRef → VRef) (done : List VRef) (es : EmitSt), EmitInv f fb σ done es →
    (∃ n, basePtr = .inst n ∧ fb ≤ n ∧ n < es.next) →
    (∀ po ∈ objs, OldNonConst fb po.2 ∧
      (st.linkMap.find? (fun q => q.1 = po.1)).isSome = true) →
    ∃ σ', EmitInv f fb σ' (done ++ objs.map (·.2)) (objs.foldl (applyObj st basePtr) es) ∧
      es.next ≤ (objs.foldl (applyObj st basePtr) es).next := by
  induction objs with
  | nil =>
    intro σ done es inv _ _
    exact ⟨σ, by simpa using inv, le_refl _⟩
  | cons po rest ih =>
    intro σ done es inv hbase hall
    have hhead := hall po (List.mem_cons_self _ _)
    obtain ⟨σ1, inv1, hm1⟩ := applyObj_inv f fb σ done st basePtr es po inv hbase
      hhead.1 hhead.2
    obtain ⟨n, hn, hn1, hn2⟩ := hbase
    obtain ⟨σ2, inv2, hm2⟩ := ih σ1 (done ++ [po.2]) (applyObj st basePtr es po) inv1
      ⟨n, hn, hn1, by omega⟩ (fun q hq => hall q (List.mem_cons_of_mem _ hq))
    refine ⟨σ2, ?_, by simpa using le_trans hm1 hm2⟩
    simpa [List.append_assoc] using inv2

/-- The whole rewrite phase establishes the invariant with every discovered
leaf processed: there is a substitution `σ` — moving exactly the leaf offset
values, each to a fresh `ptrtoint` — such that the output function consists
of the old instructions in order with `σ` applied, interleaved with fresh
instructions using only fresh or constant operands. -/
theorem applyFrame_inv (f : Func) (st : FrameSt) (rootTy : LType)
    (hcov : ∀ po ∈ st.allObjs, (st.linkMap.find? (fun q => q.1 = po.1)).isSome = true)
    (hold : ∀ po ∈ st.allObjs, OldNonConst (freshBase f) po.2) :
    ∃ σ es, applyFrame f st rootTy = es.g ∧
      EmitInv f (freshBase f) σ (st.allObjs.map (·.2)) es := by
  have hfilt : ∀ l : List (Nat × Instr), (∀ p ∈ l, p ∈ f.all) →
      l.filter (fun p => p.1 < freshBase f) = l.map (substMany (fun x => x)) := by
    intro l hl
    have h1 : l.filter (fun p => p.1 < freshBase f) = l := by
      apply List.filter_eq_self.mpr
      intro p hp
      simpa using freshBase_bound f p (hl p hp)
    rw [h1]
    exact ((List.map_congr_left (fun p _ => substMany_id p)).trans (List.map_id' l)).symm
  have base : EmitInv f (freshBase f) (fun x => x) []
      ⟨{ f with instrs := (freshBase f, ⟨.alloca, [], .ptr rootTy⟩) :: f.instrs,
                frameTags := f.frameTags ++ [freshBase f] }, freshBase f + 1⟩ := by
    refine ⟨Nat.le_succ _, rfl, rfl, ?_, ?_, ?_, fun x => Or.inl rfl, fun x _ => rfl,
      by simp, by simp⟩
    · show List.filter _ (_ :: f.instrs) = _
      rw [List.filter_cons]
      simp only [decide_eq_true_eq, lt_irrefl, if_false]
      exact hfilt f.instrs (fun p hp => by simp [Func.all, hp])
    · exact hfilt f.detached (fun p hp => by simp [Func.all, hp])
    · intro p hp hfb
      simp only [Func.all] at hp
      rcases List.mem_append.mp hp with h | h
      · rcases List.mem_cons.mp h with rfl | h'
        · exact ⟨Nat.lt_succ_self _, fun o ho => by cases ho⟩
        · have := freshBase_bound f p (by simp [Func.all, h'])
          omega
      · have := freshBase_bound f p (by simp [Func.all, h])
        omega
  obtain ⟨σ, inv', _⟩ := applyList_inv f (freshBase f) st (.inst (freshBase f)) st.allObjs
    (fun x => x) [] _ base ⟨freshBase f, rfl, le_refl _, Nat.lt_succ_self _⟩
    (fun po hpo => ⟨hold po hpo, hcov po hpo⟩)
  exact ⟨σ, _, rfl, by simpa using inv'⟩

/-! ## Link coverage of represented leaves -/

/-- `find?` over an extended association list stays found. -/
theorem find?_isSome_append {α : Type} (p : α → Bool) (l l' : List α)
    (h : (l.find? p).isSome = true) : ((l ++ l').find? p).isSome = true := by
  induction l with
  | nil => simp at h
  | cons a rest ih =>
    by_cases hp : p a = true
    · simp [List.find?, hp]
    · have hp' : p a = false := by simpa using hp
      simp only [List.find?, hp'] at h ⊢
      simpa using ih (by simpa using h)

/-- `find?` finds an appended element satisfying the predicate when nothing
earlier matched. -/
theorem find?_append_isSome {α : Type} (p : α → Bool) (l : List α) (x : α)
    (hx : p x = true) : ((l ++ [x]).find? p).isSome = true := by
  induction l with
  | nil => simp [List.find?, hx]
  | cons a rest ih =>
    by_cases hp : p a = true
    · simp [List.find?, hp]
    · have hp' : p a = false := by simpa using hp
      simpa [List.find?, hp'] using ih

/-- `stLinkFor` registers the requested path. -/
theorem stLinkFor_hasLink (st : FrameSt) (path : List Nat) :
    HasLink (stLinkFor st path).2 path := by
  unfold stLinkFor stCreateLink HasLink
  cases hf : st.linkMap.find? (fun q => q.1 = path) with
  | some pl => simp [hf]
  | none => exact find?_append_isSome _ _ _ (by simp)

/-- `stLinkFor` keeps every registered path registered. -/
theorem stLinkFor_mono (st : FrameSt) (path p : List Nat) (h : HasLink st p) :
    HasLink (stLinkFor st path).2 p := by
  unfold stLinkFor
  cases hf : st.linkMap.find? (fun q => q.1 = path) with
  | some pl => exact h
  | none => exact find?_isSome_append _ _ _ h

/-- `stSetIdx` does not touch the link map. -/
theorem stSetIdx_hasLink (st : FrameSt) (lid : Nat) (i : Int) (t : LType) (p : List Nat)
    (h : HasLink st p) : HasLink (stSetIdx st lid i t) p := h

/-- `stSetParent` does not touch the link map. -/
theorem stSetParent_hasLink (st : FrameSt) (lid pid : Nat) (p : List Nat)
    (h : HasLink st p) : HasLink (stSetParent st lid pid) p := h

/-- The `count == 1` linking fold of `reduceStructField` registers every
access and keeps registered paths. -/
theorem linkFold_cover (pl : Nat) (idx : Int) (accs : List TypedAccess) :
    ∀ st : FrameSt,
    (∀ p, HasLink st p → HasLink (accs.foldl (fun s a =>
        let rl := stLinkFor s a.obj
        stSetParent (stSetIdx rl.2 rl.1 idx a.ty) rl.1 pl) st) p) ∧
    (∀ a ∈ accs, HasLink (accs.foldl (fun s a =>
        let rl := stLinkFor s a.obj
        stSetParent (stSetIdx rl.2 rl.1 idx a.ty) rl.1 pl) st) a.obj) := by
  induction accs with
  | nil => exact fun st => ⟨fun p h => h, fun a ha => absurd ha (by simp)⟩
  | cons a rest ih =>
    intro st
    constructor
    · intro p h
      exact (ih _).1 p (stSetParent_hasLink _ _ _ _ (stSetIdx_hasLink _ _ _ _ _
        (stLinkFor_mono st a.obj p h)))
    · intro b hb
      rcases List.mem_cons.mp hb with rfl | hb'
      · exact (ih _).1 b.obj (stSetParent_hasLink _ _ _ _ (stSetIdx_hasLink _ _ _ _ _
          (stLinkFor_hasLink st b.obj)))
      · exact (ih _).2 b hb'

/-- The multi-field linking loop of `reduceStructField` registers every
access and keeps registered paths. -/
theorem linkFields_cover (gep : List (List Nat × Int)) (slid : Nat)
    (accs : List TypedAccess) :
    ∀ (st st' : FrameSt), linkFields gep slid accs st = some st' →
    (∀ p, HasLink st p → HasLink st' p) ∧ (∀ a ∈ accs, HasLink st' a.obj) := by
  induction accs with
  | nil =>
    intro st st' h
    cases h
    exact ⟨fun p h => h, fun a ha => absurd ha (by simp)⟩
  | cons a rest ih =>
    intro st st' h
    simp only [linkFields] at h
    cases hg : gepGet a.obj gep with
    | none => rw [hg] at h; cases h
    | some gi =>
      rw [hg] at h
      have hrest := ih _ _ h
      constructor
      · intro p hp
        exact hrest.1 p (stSetParent_hasLink _ _ _ _ (stSetIdx_hasLink _ _ _ _ _
          (stLinkFor_mono st a.obj p hp)))
      · intro b hb
        rcases List.mem_cons.mp hb with rfl | hb'
        · exact hrest.1 b.obj (stSetParent_hasLink _ _ _ _ (stSetIdx_hasLink _ _ _ _ _
            (stLinkFor_hasLink st b.obj)))
        · exact hrest.2 b hb'

/-- `stLinkFor` does not touch `allObjs`. -/
theorem stLinkFor_allObjs (st : FrameSt) (path : List Nat) :
    (stLinkFor st path).2.allObjs = st.allObjs := by
  unfold stLinkFor stCreateLink
  cases st.linkMap.find? (fun q => q.1 = path) <;> rfl

/-- The `count == 1` linking fold does not touch `allObjs`. -/
theorem linkFold_allObjs (pl : Nat) (idx : Int) (accs : List TypedAccess) :
    ∀ st : FrameSt, (accs.foldl (fun s a =>
      let rl := stLinkFor s a.obj
      stSetParent (stSetIdx rl.2 rl.1 idx a.ty) rl.1 pl) st).allObjs = st.allObjs := by
  induction accs with
  | nil => intro st; rfl
  | cons a rest ih =>
    intro st
    rw [List.foldl_cons, ih]
    show (stSetParent _ _ _).allObjs = _
    have h1 : (stSetParent (stSetIdx (stLinkFor st a.obj).2 (stLinkFor st a.obj).1 idx a.ty)
        (stLinkFor st a.obj).1 pl).allObjs = (stLinkFor st a.obj).2.allObjs := rfl
    rw [h1, stLinkFor_allObjs]

/-- The multi-field linking loop does not touch `allObjs`. -/
theorem linkFields_allObjs (gep : List (List Nat × Int)) (slid : Nat)
    (accs : List TypedAccess) :
    ∀ (st st' : FrameSt), linkFields gep slid accs st = some st' →
    st'.allObjs = st.allObjs := by
  induction accs with
  | nil =>
    intro st st' h
    cases h
    rfl
  | cons a rest ih =>
    intro st st' h
    simp only [linkFields] at h
    cases hg : gepGet a.obj gep with
    | none => rw [hg] at h; cases h
    | some gi =>
      rw [hg] at h
      rw [ih _ _ h]
      show (stSetParent _ _ _).allObjs = _
      have h1 : (stSetParent (stSetIdx (stLinkFor st a.obj).2 (stLinkFor st a.obj).1 gi a.ty)
          (stLinkFor st a.obj).1 slid).allObjs = (stLinkFor st a.obj).2.allObjs := rfl
      rw [h1, stLinkFor_allObjs]

/-- `reduceStructField` registers every access of the flushed window, keeps
registered paths, and does not touch `allObjs`. -/
theorem reduceStructField_cover (st : FrameSt) (accs : List TypedAccess) (pl : Nat)
    (idx : Int) (ty : LType) (st' : FrameSt)
    (h : reduceStructField st accs pl idx = some (ty, st')) :
    (∀ p, HasLink st p → HasLink st' p) ∧ (∀ a ∈ accs, HasLink st' a.obj) ∧
    st'.allObjs = st.allObjs := by
  unfold reduceStructField at h
  dsimp only at h
  cases hr : (reduce accs).2.1 with
  | none => rw [hr] at h; cases h
  | some resultType =>
    rw [hr] at h
    dsimp only at h
    by_cases hc : (reduce accs).1 = 1
    · rw [if_pos hc] at h
      cases h
      exact ⟨(linkFold_cover pl idx accs st).1, (linkFold_cover pl idx accs st).2,
        linkFold_allObjs pl idx accs st⟩
    · rw [if_neg hc] at h
      cases hlf : linkFields (reduce accs).2.2 (stCreateLink st).1 accs
          (stSetIdx (stSetParent (stCreateLink st).2 (stCreateLink st).1 pl)
            (stCreateLink st).1 idx resultType) with
      | none => rw [hlf] at h; cases h
      | some st2 =>
        rw [hlf] at h
        cases h
        have hlc := linkFields_cover _ _ _ _ _ hlf
        have hobjs := linkFields_allObjs _ _ _ _ _ hlf
        exact ⟨fun p hp => hlc.1 p hp, hlc.2, hobjs⟩

/-- An accepted window insertion keeps the old records and contains the new
one. -/
theorem winInsert_sub (w : List TypedAccess) (a : TypedAccess) (w1 : List TypedAccess)
    (h : winInsert w a = some w1) : a ∈ w1 ∧ ∀ b ∈ w, b ∈ w1 := by
  unfold winInsert at h
  cases hl : w.getLast? with
  | none =>
    rw [hl] at h
    cases h
    have hw : w = [] := by
      cases w with
      | nil => rfl
      | cons x xs => simp [List.getLast?_eq_none_iff] at hl
    subst hw
    exact ⟨by simp, by simp⟩
  | some b =>
    rw [hl] at h
    dsimp only at h
    split at h
    · cases h
    · cases h
      exact ⟨by simp, fun c hc => by simp [hc]⟩

mutual
/-- Representation registers a link for every newly pushed leaf — except
possibly the represented object itself (covered by its parent's flush or, at
the root, by the public wrapper). -/
theorem repObj_cover (f : Func) (gf : Nat) (o : SObj) :
    ∀ (path : List Nat) (st st' : FrameSt),
    repObj f gf path st o = some st' →
    (∀ p, HasLink st p → HasLink st' p) ∧
    (∀ q ∈ st'.allObjs, q ∈ st.allObjs ∨ HasLink st' q.1 ∨ q.1 = path) := by
  cases o with
  | obj v =>
    intro path st st' h
    unfold repObj at h
    dsimp only at h
    split at h
    · cases h
    · split at h
      · cases h
        refine ⟨fun p hp => hp, fun q hq => ?_⟩
        rcases List.mem_append.mp hq with h1 | h1
        · exact Or.inl h1
        · have : q = (path, v) := by simpa using h1
          subst this
          exact Or.inr (Or.inr rfl)
      · cases h
  | strukt fields =>
    intro path st st' h
    unfold repObj at h
    dsimp only at h
    split at h
    · cases h
    · rename_i w2 fts2 st2 hwr
      have hrf := repFields_cover f gf fields path (stLinkFor st path).1 0 [] []
        (stLinkFor st path).2 w2 fts2 st2 hwr
      split at h
      · cases h
        refine ⟨?_, ?_⟩
        · intro p hp
          exact hrf.1 p (stLinkFor_mono st path p hp)
        · intro q hq
          have hq2 : q ∈ st2.allObjs := hq
          rcases hrf.2.1 q hq2 with h1 | h1 | h1
          · rw [stLinkFor_allObjs] at h1
            exact Or.inl h1
          · exact Or.inr (Or.inl h1)
          · rcases h1 with ⟨a, ha, _⟩
            cases ha
      · rename_i whead wtail
        split at h
        · cases h
        · rename_i res st3 hred
          cases h
          have hc := reduceStructField_cover st2 (whead :: wtail) (stLinkFor st path).1
            (fts2.length : Int) res st3 hred
          refine ⟨?_, ?_⟩
          · intro p hp
            exact hc.1 p (hrf.1 p (stLinkFor_mono st path p hp))
          · intro q hq
            have hq3 : q ∈ st3.allObjs := hq
            rw [hc.2.2] at hq3
            rcases hrf.2.1 q hq3 with h1 | h1 | h1
            · rw [stLinkFor_allObjs] at h1
              exact Or.inl h1
            · exact Or.inr (Or.inl (hc.1 _ h1))
            · rcases h1 with ⟨a, ha, hae⟩
              rw [← hae]
              exact Or.inr (Or.inl (hc.2.1 a ha))

/-- The field walk registers links for everything it pushes, except the
records still pending in the final window; records of the starting window
are either flushed (link registered) or still pending. -/
theorem repFields_cover (f : Func) (gf : Nat) (fields : SFields) :
    ∀ (path : List Nat) (tl i : Nat) (w : List TypedAccess) (fts : List LType)
    (st : FrameSt) (w' : List TypedAccess) (fts' : List LType) (st' : FrameSt),
    repFields f gf path tl i w fts st fields = some (w', fts', st') →
    (∀ p, HasLink st p → HasLink st' p) ∧
    (∀ q ∈ st'.allObjs, q ∈ st.allObjs ∨ HasLink st' q.1 ∨ ∃ a ∈ w', a.obj = q.1) ∧
    (∀ a ∈ w, HasLink st' a.obj ∨ ∃ a' ∈ w', a'.obj = a.obj) := by
  cases fields with
  | nil =>
    intro path tl i w fts st w' fts' st' h
    cases h
    exact ⟨fun p hp => hp, fun q hq => Or.inl hq, fun a ha => Or.inr ⟨a, ha, rfl⟩⟩
  | cons off child rest =>
    intro path tl i w fts st w' fts' st' h
    unfold repFields at h
    split at h
    · cases h
    · rename_i st1 hchild
      have hco := repObj_cover f gf child (path ++ [i]) st st1 hchild
      split at h
      · cases h
      · rename_i fieldTy hft
        split at h
        · rename_i w1 hwin
          have hsub := winInsert_sub w ⟨off, path ++ [i], fieldTy⟩ w1 hwin
          have hrest := repFields_cover f gf rest path tl (i + 1) w1 fts st1 w' fts' st' h
          refine ⟨fun p hp => hrest.1 p (hco.1 p hp), ?_, ?_⟩
          · intro q hq
            rcases hrest.2.1 q hq with h1 | h1 | h1
            · rcases hco.2 q h1 with h2 | h2 | h2
              · exact Or.inl h2
              · exact Or.inr (Or.inl (hrest.1 _ h2))
              · rcases hrest.2.2 ⟨off, path ++ [i], fieldTy⟩ hsub.1 with h3 | ⟨a', ha', hae⟩
                · rw [h2]
                  exact Or.inr (Or.inl h3)
                · rw [h2]
                  exact Or.inr (Or.inr ⟨a', ha', hae⟩)
            · exact Or.inr (Or.inl h1)
            · exact Or.inr (Or.inr h1)
          · intro a ha
            exact hrest.2.2 a (hsub.2 a ha)
        · split at h
          · cases h
          · rename_i result st2 hredf
            have hc := reduceStructField_cover st1 w tl (fts.length : Int) result st2 hredf
            have hrest := repFields_cover f gf rest path tl (i + 1)
              [⟨off, path ++ [i], fieldTy⟩] _ st2 w' fts' st' h
            refine ⟨?_, ?_, ?_⟩
            · intro p hp
              exact hrest.1 p (hc.1 p (hco.1 p hp))
            · intro q hq
              rcases hrest.2.1 q hq with h1 | h1 | h1
              · rw [hc.2.2] at h1
                rcases hco.2 q h1 with h2 | h2 | h2
                · exact Or.inl h2
                · exact Or.inr (Or.inl (hrest.1 _ (hc.1 _ h2)))
                · rcases hrest.2.2 ⟨off, path ++ [i], fieldTy⟩ (by simp) with h3 | ⟨a', ha', hae⟩
                  · rw [h2]
                    exact Or.inr (Or.inl h3)
                  · rw [h2]
                    exact Or.inr (Or.inr ⟨a', ha', hae⟩)
              · exact Or.inr (Or.inl h1)
              · exact Or.inr (Or.inr h1)
            · intro a ha
              exact Or.inl (hrest.1 _ (hc.2.1 a ha))
end

/-- Setting the root link covers everything that was covered or was the
root. -/
theorem wrapped_cover (st0 : FrameSt) (rootTy : LType)
    (h : ∀ q ∈ st0.allObjs, HasLink st0 q.1 ∨ q.1 = []) :
    ∀ q ∈ (stSetIdx (stLinkFor st0 []).2 (stLinkFor st0 []).1 0 rootTy).allObjs,
      HasLink (stSetIdx (stLinkFor st0 []).2 (stLinkFor st0 []).1 0 rootTy) q.1 := by
  intro q hq
  have hq0 : q ∈ st0.allObjs := by
    have h1 : (stSetIdx (stLinkFor st0 []).2 (stLinkFor st0 []).1 0 rootTy).allObjs
        = (stLinkFor st0 []).2.allObjs := rfl
    rw [h1, stLinkFor_allObjs] at hq
    exact hq
  rcases h q hq0 with h1 | h1
  · exact stSetIdx_hasLink _ _ _ _ _ (stLinkFor_mono st0 [] q.1 h1)
  · rw [h1]
    exact stSetIdx_hasLink _ _ _ _ _ (stLinkFor_hasLink st0 [])

/-- After the public `representObject` wrapper, every discovered leaf has a
registered link (the wrapper registers the root itself). -/
theorem representFrame_cover (f : Func) (gf : Nat) (root : SObj) (st : FrameSt)
    (rootTy : LType) (h : representFrame f gf root = some (st, rootTy)) :
    ∀ q ∈ st.allObjs, HasLink st q.1 := by
  unfold representFrame at h
  split at h
  · cases h
  · rename_i fields
    split at h
    · cases h
    · rename_i st0 hrep
      split at h
      · cases h
      · rename_i rootTy0 hty
        cases h
        refine wrapped_cover st0 _ ?_
        intro q hq
        have hcover := repObj_cover f gf (.strukt fields) [] FrameSt.empty st0 hrep
        rcases hcover.2 q hq with h1 | h1 | h1
        · simp [FrameSt.empty] at h1
        · exact Or.inl h1
        · exact Or.inr h1

/-! ## Discovered leaves are exactly the tree's leaves -/

mutual
/-- A successful representation pushes exactly the object's leaves, in
depth-first field order, onto `allObjects`. -/
theorem repObj_allObjs (f : Func) (gf : Nat) (o : SObj) :
    ∀ (path : List Nat) (st st' : FrameSt), repObj f gf path st o = some st' →
    st'.allObjs.map (·.2) = st.allObjs.map (·.2) ++ leafVals o := by
  cases o with
  | obj v =>
    intro path st st' h
    unfold repObj at h
    dsimp only at h
    split at h
    · cases h
    · split at h
      · cases h
        simp [leafVals]
      · cases h
  | strukt fields =>
    intro path st st' h
    unfold repObj at h
    dsimp only at h
    split at h
    · cases h
    · rename_i w2 fts2 st2 hwr
      have hrf := repFields_allObjs f gf fields path (stLinkFor st path).1 0 [] []
        (stLinkFor st path).2 w2 fts2 st2 hwr
      rw [stLinkFor_allObjs] at hrf
      split at h
      · cases h
        exact hrf
      · rename_i whead wtail
        split at h
        · cases h
        · rename_i res st3 hred
          cases h
          have hc := reduceStructField_cover st2 (whead :: wtail) (stLinkFor st path).1
            (fts2.length : Int) res st3 hred
          show st3.allObjs.map (·.2) = _
          rw [hc.2.2]
          exact hrf

/-- The field walk pushes exactly the fields' leaves in order. -/
theorem repFields_allObjs (f : Func) (gf : Nat) (fields : SFields) :
    ∀ (path : List Nat) (tl i : Nat) (w : List TypedAccess) (fts : List LType)
    (st : FrameSt) (w' : List TypedAccess) (fts' : List LType) (st' : FrameSt),
    repFields f gf path tl i w fts st fields = some (w', fts', st') →
    st'.allObjs.map (·.2) = st.allObjs.map (·.2) ++ leafValsF fields := by
  cases fields with
  | nil =>
    intro path tl i w fts st w' fts' st' h
    cases h
    simp [leafValsF]
  | cons off child rest =>
    intro path tl i w fts st w' fts' st' h
    unfold repFields at h
    split at h
    · cases h
    · rename_i st1 hchild
      have hco := repObj_allObjs f gf child (path ++ [i]) st st1 hchild
      split at h
      · cases h
      · rename_i fieldTy hft
        split at h
        · rename_i w1 hwin
          have hrest := repFields_allObjs f gf rest path tl (i + 1) w1 fts st1 w' fts' st' h
          rw [hrest, hco, leafValsF, List.append_assoc]
        · split at h
          · cases h
          · rename_i result st2 hredf
            have hc := reduceStructField_cover st1 w tl (fts.length : Int) result st2 hredf
            have hrest := repFields_allObjs f gf rest path tl (i + 1)
              [⟨off, path ++ [i], fieldTy⟩] _ st2 w' fts' st' h
            rw [hrest, hc.2.2, hco, leafValsF, List.append_assoc]
end

/-- The leaf values a successful run discovers are exactly the tree's
leaves. -/
theorem representFrame_allObjs (f : Func) (gf : Nat) (root : SObj) (st : FrameSt)
    (rootTy : LType) (h : representFrame f gf root = some (st, rootTy)) :
    st.allObjs.map (·.2) = leafVals root := by
  unfold representFrame at h
  split at h
  · cases h
  · rename_i fields
    split at h
    · cases h
    · rename_i st0 hrep
      split at h
      · cases h
      · rename_i rootTy0 hty
        cases h
        have h1 := repObj_allObjs f gf (.strukt fields) [] FrameSt.empty st0 hrep
        show (stLinkFor st0 []).2.allObjs.map (·.2) = leafVals (.strukt fields)
        rw [stLinkFor_allObjs, h1]
        simp [FrameSt.empty]

/-! ## Provenance of the tree's leaves -/

/-- `SFields.snoc` appends to the field list. -/
theorem snoc_toList : ∀ (fs : SFields) (o : Int) (c : SObj),
    (fs.snoc o c).toList = fs.toList ++ [(o, c)]
  | .nil, o, c => rfl
  | .cons o' c' rest, o, c => by
    simp [SFields.snoc, SFields.toList, snoc_toList rest o c]

/-- The children built by `readFields` are the successful recursive reads of
the map entries, in order, appended to the accumulator. -/
theorem readFields_toList (front : Int) (g : Nat → Option SObj) :
    ∀ (l : List (Int × Nat)) (acc : SFields),
    (readFields front g l acc).toList =
      acc.toList ++ l.filterMap (fun p => (g p.2).map (fun ch => (p.1 - front, ch))) := by
  intro l
  induction l with
  | nil => intro acc; simp [readFields]
  | cons p rest ih =>
    intro acc
    unfold readFields
    cases hg : g p.2 with
    | none => simp [ih, List.filterMap_cons, hg]
    | some child => simp [ih, snoc_toList, List.filterMap_cons, hg]

/-- Membership in `leafValsF` through the field list. -/
theorem leafValsF_mem : ∀ (fs : SFields) (v : VRef),
    v ∈ leafValsF fs ↔ ∃ p ∈ fs.toList, v ∈ leafVals p.2
  | .nil, v => by simp [leafValsF, SFields.toList]
  | .cons o c rest, v => by
    simp only [leafValsF, SFields.toList, List.mem_append, List.mem_cons,
      leafValsF_mem rest v]
    constructor
    · rintro (h | ⟨p, hp, hv⟩)
      · exact ⟨(o, c), Or.inl rfl, h⟩
      · exact ⟨p, Or.inr hp, hv⟩
    · rintro ⟨p, hp | hp, hv⟩
      · rw [hp] at hv
        exact Or.inl hv
      · exact Or.inr ⟨p, hp, hv⟩

/-- Values recorded in the constant-offset map come from the user list (or
the accumulator). -/
theorem analyzeGo_values (base : VRef) :
    ∀ (l : List (Nat × Instr)) (hc : Bool) (m : List (Int × Nat)) (r : ClassifyResult),
    analyzeGo base l hc m = some r →
    ∀ e ∈ r.constantOffsets, e ∈ m ∨ ∃ q ∈ l, q.1 = e.2 := by
  have hmi : ∀ (k : Int) (v : Nat) (m : List (Int × Nat)) (e : Int × Nat),
      e ∈ mapInsert k v m → e ∈ m ∨ e = (k, v) := by
    intro k v m
    induction m with
    | nil => intro e he; simpa [mapInsert] using he
    | cons a rest ih =>
      intro e he
      unfold mapInsert at he
      split at he
      · rcases List.mem_cons.mp he with rfl | he'
        · exact Or.inr rfl
        · exact Or.inl he'
      · split at he
        · exact Or.inl he
        · rcases List.mem_cons.mp he with rfl | he'
          · exact Or.inl (List.mem_cons_self _ _)
          · rcases ih e he' with h | h
            · exact Or.inl (List.mem_cons_of_mem _ h)
            · exact Or.inr h
  intro l
  induction l with
  | nil =>
    intro hc m r h e he
    cases h
    exact Or.inl he
  | cons p rest ih =>
    intro hc m r h e he
    unfold analyzeGo at h
    split at h
    · split at h
      · rename_i c hco
        rcases ih _ _ _ h e he with hm | ⟨q, hq, hqe⟩
        · rcases hmi _ _ _ _ hm with hm' | hm'
          · exact Or.inl hm'
          · exact Or.inr ⟨p, List.mem_cons_self _ _, by rw [hm']⟩
        · exact Or.inr ⟨q, List.mem_cons_of_mem _ hq, hqe⟩
      · cases h
    · cases h
    all_goals
      first
      | (rcases ih _ _ _ h e he with hm | ⟨q, hq, hqe⟩
         · exact Or.inl hm
         · exact Or.inr ⟨q, List.mem_cons_of_mem _ hq, hqe⟩)

/-- Every leaf value of a read tree is the base itself or the id of an
existing instruction (a recorded constant-offset user somewhere below). -/
theorem readObject_leaves (f : Func) :
    ∀ (fuel : Nat) (b : VRef) (o : SObj), readObject f fuel b = some o →
    ∀ v ∈ leafVals o, v = b ∨ ∃ uid, v = .inst uid ∧ ∃ q ∈ f.all, q.1 = uid := by
  intro fuel
  induction fuel with
  | zero =>
    intro b o h
    cases h
  | succ fuel ih =>
    intro b o h v hv
    unfold readObject at h
    cases ha : analyzeObject f b with
    | none =>
      rw [ha] at h
      cases h
    | some r =>
      rw [ha] at h
      dsimp only at h
      cases hco : r.constantOffsets with
      | nil =>
        rw [hco] at h
        cases h
        have : v = b := by simpa [leafVals] using hv
        exact Or.inl this
      | cons p rest =>
        obtain ⟨c0, u0⟩ := p
        rw [hco] at h
        cases h
        rw [leafVals, leafValsF_mem] at hv
        obtain ⟨q, hq, hvq⟩ := hv
        rw [readFields_toList] at hq
        rcases List.mem_append.mp hq with hq1 | hq1
        · by_cases hcast : r.hasCast
          · rw [if_pos hcast] at hq1
            have : q = (0, .obj b) := by simpa [SFields.toList] using hq1
            subst this
            have : v = b := by simpa [leafVals] using hvq
            exact Or.inl this
          · rw [if_neg hcast] at hq1
            simp [SFields.toList] at hq1
        · rcases List.mem_filterMap.mp hq1 with ⟨⟨c, uid⟩, hcl, hgq⟩
          rcases Option.map_eq_some'.mp hgq with ⟨ch, hch, hq2⟩
          rcases ih (.inst uid) ch hch v (by rw [← hq2] at hvq; exact hvq) with h1 | h1
          · subst h1
            refine Or.inr ⟨uid, rfl, ?_⟩
            have hvals := analyzeGo_values b (usersOf f b) false [] r ha (c, uid)
              (by rw [hco]; exact hcl)
            rcases hvals with hm | ⟨q', hq', hq'e⟩
            · cases hm
            · exact ⟨q', List.mem_of_mem_filter hq', hq'e⟩
          · exact Or.inr h1

/-! ## Users after the rewrite phase -/

/-- Under the invariant, `σ` maps a value onto an unprocessed old value only
identically. -/
theorem inv_sigma_ne (f : Func) (fb : Nat) (σ : VRef → VRef) (done : List VRef)
    (es : EmitSt) (inv : EmitInv f fb σ done es) (b : VRef) (hb : OldNonConst fb b)
    (hbL : b ∉ done) : ∀ x, σ x = b ↔ x = b := by
  intro x
  constructor
  · intro h
    rcases inv.sigma_spec x with h' | ⟨n, h1, h2, _⟩
    · rw [← h', h]
    · exfalso
      apply OldNonConst.not_new hb
      exact Or.inl ⟨n, by rw [← h, h1], h2, Nat.lt_succ_self n⟩
  · rintro rfl
    exact inv.sigma_id _ hbL

/-- Under the invariant, every processed value has an empty use list in the
rewritten function. -/
theorem inv_dead (f : Func) (fb : Nat) (σ : VRef → VRef) (done : List VRef)
    (es : EmitSt) (inv : EmitInv f fb σ done es) (v : VRef) (hv : v ∈ done) :
    usersOf es.g v = [] := by
  have hvold := inv.done_old v hv
  obtain ⟨n, hσv, hfbn⟩ := inv.killed v hv
  have hσne : ∀ o, σ o ≠ v := by
    intro o he
    rcases inv.sigma_spec o with h | ⟨m, h1, h2, _⟩
    · apply OldNonConst.not_new hvold
      have hov : o = v := h.symm.trans he
      have hsvv : σ v = v := by
        rw [← hov]
        exact h
      have hv2 : v = VRef.inst n := by
        rw [← hsvv, hσv]
      exact Or.inl ⟨n, hv2, hfbn, Nat.lt_succ_self n⟩
    · apply OldNonConst.not_new hvold
      have hv2 : v = VRef.inst m := by
        rw [← he, h1]
      exact Or.inl ⟨m, hv2, h2, Nat.lt_succ_self m⟩
  unfold usersOf
  rw [List.filter_eq_nil_iff]
  intro p hp
  simp only [decide_eq_true_eq]
  intro hmem
  by_cases hfb : p.1 < fb
  · rcases List.mem_append.mp hp with hpi | hpd
    · have hpm : p ∈ f.instrs.map (substMany σ) := by
        rw [← inv.old_instrs]
        exact List.mem_filter.mpr ⟨hpi, by simpa⟩
      rcases List.mem_map.mp hpm with ⟨q, _, rfl⟩
      rcases List.mem_map.mp hmem with ⟨o, _, hσo⟩
      exact hσne o hσo
    · have hpm : p ∈ f.detached.map (substMany σ) := by
        rw [← inv.old_detached]
        exact List.mem_filter.mpr ⟨hpd, by simpa⟩
      rcases List.mem_map.mp hpm with ⟨q, _, rfl⟩
      rcases List.mem_map.mp hmem with ⟨o, _, hσo⟩
      exact hσne o hσo
  · have := (inv.new_ops p hp (by omega)).2 v hmem
    exact OldNonConst.not_new hvold this

/-- Under the invariant, the users of an unprocessed old value are the old
users, in order, with `σ` applied to their operands. -/
theorem inv_users_eq (f : Func) (fb : Nat) (σ : VRef → VRef) (done : List VRef)
    (es : EmitSt) (inv : EmitInv f fb σ done es) (b : VRef) (hb : OldNonConst fb b)
    (hbL : b ∉ done) : usersOf es.g b = (usersOf f b).map (substMany σ) := by
  have hσb := inv_sigma_ne f fb σ done es inv b hb hbL
  have hmem : ∀ q : Nat × Instr, (b ∈ (substMany σ q).2.ops) ↔ b ∈ q.2.ops := by
    intro q
    constructor
    · intro h
      rcases List.mem_map.mp h with ⟨o, ho, hσ⟩
      rw [← (hσb o).mp hσ]
      exact ho
    · intro h
      have : σ b = b := (hσb b).mpr rfl
      rw [← this] at *
      exact List.mem_map_of_mem σ h
  have hold : ∀ p ∈ es.g.all, b ∈ p.2.ops → p.1 < fb := by
    intro p hp hbp
    by_contra hfb
    have := (inv.new_ops p hp (by omega)).2 b hbp
    exact OldNonConst.not_new hb this
  unfold usersOf
  rw [← filter_through es.g.all _ (fun p => p.1 < fb)
    (by intro p hp h; simpa using hold p hp (by simpa using h))]
  have hfil : es.g.all.filter (fun p => p.1 < fb) = f.all.map (substMany σ) := by
    unfold Func.all
    rw [List.filter_append, inv.old_instrs, inv.old_detached, List.map_append]
  rw [hfil, filter_of_map]
  congr 1
  apply List.filter_congr
  intro q hq
  by_cases hh : b ∈ q.2.ops
  · simp [hh, (hmem q).mpr hh]
  · have h2 : b ∉ (substMany σ q).2.ops := fun hc => hh ((hmem q).mp hc)
    simp [hh, h2]

/-- `σ` fixes every constant under the invariant. -/
theorem inv_sigma_cint (f : Func) (fb : Nat) (σ : VRef → VRef) (done : List VRef)
    (es : EmitSt) (inv : EmitInv f fb σ done es) :
    ∀ (c : Int) (x : VRef), σ x = .cint c ↔ x = .cint c := by
  intro c x
  constructor
  · intro h
    rcases inv.sigma_spec x with h' | ⟨n, h1, _, _⟩
    · rw [← h', h]
    · rw [h1] at h
      cases h
  · rintro rfl
    apply inv.sigma_id
    intro hmem
    rcases inv.done_old _ hmem with ⟨i, hi⟩ | ⟨n, hn, _⟩
    · cases hi
    · cases hn

/-- `otherOperand` commutes with an operand substitution that does not move
the base. -/
theorem otherOperand_map (b : VRef) (σ : VRef → VRef) (hσb : ∀ x, σ x = b ↔ x = b)
    (k : InstKind) (ops : List VRef) (ty : LType) :
    otherOperand b ⟨k, ops.map σ, ty⟩ = (otherOperand b ⟨k, ops, ty⟩).map σ := by
  unfold otherOperand
  cases ops with
  | nil => rfl
  | cons a t =>
    cases t with
    | nil => rfl
    | cons a2 t2 =>
      cases t2 with
      | nil =>
        simp only [List.map_cons, List.map_nil]
        by_cases hab : a = b
        · rw [if_pos hab, if_pos ((hσb a).mpr hab)]
          rfl
        · rw [if_neg hab, if_neg (fun h => hab ((hσb a).mp h))]
          rfl
      | cons a3 t3 => rfl

/-- The classifier result is unchanged by an operand substitution that moves
neither the base nor any constant. -/
theorem analyzeGo_map (b : VRef) (σ : VRef → VRef) (hσb : ∀ x, σ x = b ↔ x = b)
    (hσc : ∀ (c : Int) (x : VRef), σ x = .cint c ↔ x = .cint c) :
    ∀ (l : List (Nat × Instr)) (hc : Bool) (m : List (Int × Nat)),
    analyzeGo b (l.map (substMany σ)) hc m = analyzeGo b l hc m := by
  intro l
  induction l with
  | nil => intro hc m; rfl
  | cons p rest ih =>
    intro hc m
    obtain ⟨uid, k, ops, ty⟩ := p
    simp only [List.map_cons, substMany]
    cases k with
    | add =>
      show (match otherOperand b ⟨.add, ops.map σ, ty⟩ with
          | some (.cint c) => analyzeGo b (rest.map (substMany σ)) hc (mapInsert c uid m)
          | _ => none) =
        (match otherOperand b ⟨.add, ops, ty⟩ with
          | some (.cint c) => analyzeGo b rest hc (mapInsert c uid m)
          | _ => none)
      rw [otherOperand_map b σ hσb]
      cases hoo : otherOperand b ⟨.add, ops, ty⟩ with
      | none => rfl
      | some y =>
        cases y with
        | cint c =>
          have hy : σ (VRef.cint c) = .cint c := (hσc c _).mpr rfl
          simp only [Option.map_some', hy]
          exact ih hc (mapInsert c uid m)
        | arg i =>
          simp only [Option.map_some']
          cases hσy : σ (VRef.arg i) with
          | cint c => exact absurd ((hσc c _).mp hσy) (by intro h; cases h)
          | arg j => rfl
          | inst n => rfl
        | inst n0 =>
          simp only [Option.map_some']
          cases hσy : σ (VRef.inst n0) with
          | cint c => exact absurd ((hσc c _).mp hσy) (by intro h; cases h)
          | arg j => rfl
          | inst n => rfl
    | binOther => rfl
    | intToPtr => exact ih true m
    | ptrToInt => exact ih hc m
    | bitcast => exact ih hc m
    | castOther => exact ih hc m
    | load => exact ih hc m
    | store => exact ih hc m
    | call => exact ih hc m
    | phi => exact ih hc m
    | gep => exact ih hc m
    | alloca => exact ih hc m
    | other => exact ih hc m

/-- The classifier result preserved, at the `analyzeObject` level. -/
theorem inv_analyze_eq (f : Func) (fb : Nat) (σ : VRef → VRef) (done : List VRef)
    (es : EmitSt) (inv : EmitInv f fb σ done es) (b : VRef) (hb : OldNonConst fb b)
    (hbL : b ∉ done) : analyzeObject es.g b = analyzeObject f b := by
  unfold analyzeObject
  rw [inv_users_eq f fb σ done es inv b hb hbL]
  exact analyzeGo_map b σ (inv_sigma_ne f fb σ done es inv b hb hbL)
    (inv_sigma_cint f fb σ done es inv) (usersOf f b) false []

/-! ## Failure of the second analysis -/

/-- A value without users classifies trivially. -/
theorem analyzeObject_of_no_users (g : Func) (b : VRef) (h : usersOf g b = []) :
    analyzeObject g b = some ⟨false, []⟩ := by
  unfold analyzeObject
  rw [h]
  rfl

/-- A value without users witnesses no types. -/
theorem getUnionTypes_of_no_users (g : Func) (gf : Nat) (v : VRef)
    (h : usersOf g v = []) : getUnionTypes g gf v = [] := by
  unfold getUnionTypes
  rw [h]
  rfl

/-- A leaf whose offset value has no users fails to represent: its witnessed
type set is empty, so `reduce` yields zero useful fields. -/
theorem leaf_AlwaysFails (g : Func) (v : VRef) (h : usersOf g v = []) :
    AlwaysFails g (.obj v) := by
  intro gf path st
  unfold repObj
  rw [getUnionTypes_of_no_users g gf v h]
  rfl

/-- The object list of a field list, through `toList`. -/
theorem fieldObjs_toList : ∀ (fs : SFields) (c : SObj),
    c ∈ fieldObjs fs ↔ ∃ off, (off, c) ∈ fs.toList
  | .nil, c => by simp [fieldObjs, SFields.toList]
  | .cons o ch rest, c => by
    simp only [fieldObjs, SFields.toList, List.mem_cons, fieldObjs_toList rest c]
    constructor
    · rintro (rfl | ⟨off, hoff⟩)
      · exact ⟨o, Or.inl rfl⟩
      · exact ⟨off, Or.inr hoff⟩
    · rintro ⟨off, h | h⟩
      · cases h
        exact Or.inl rfl
      · exact Or.inr ⟨off, h⟩

/-- The field walk fails whenever one of the children always fails to
represent. -/
theorem repFields_fail (g : Func) : ∀ (fields : SFields),
    (∃ c ∈ fieldObjs fields, AlwaysFails g c) →
    ∀ (gf : Nat) (path : List Nat) (tl i : Nat) (w : List TypedAccess)
      (fts : List LType) (st : FrameSt),
    repFields g gf path tl i w fts st fields = none
  | .nil => by
    rintro ⟨c, hc, _⟩
    simp [fieldObjs] at hc
  | .cons off child rest => by
    rintro ⟨c, hc, hfail⟩ gf path tl i w fts st
    rcases List.mem_cons.mp hc with rfl | hc'
    · unfold repFields
      rw [hfail gf (path ++ [i]) st]
    · unfold repFields
      cases hch : repObj g gf (path ++ [i]) st child with
      | none => rfl
      | some st1 =>
        dsimp only
        cases hft : typeMapGet st1.typeMap (path ++ [i]) with
        | none => rfl
        | some fieldTy =>
          dsimp only
          cases hwi : winInsert w ⟨off, path ++ [i], fieldTy⟩ with
          | some w1 =>
            exact repFields_fail g rest ⟨c, hc', hfail⟩ gf path tl (i + 1) w1 fts st1
          | none =>
            dsimp only
            cases hrs : reduceStructField st1 w tl (fts.length : Int) with
            | none => rfl
            | some res =>
              exact repFields_fail g rest ⟨c, hc', hfail⟩ gf path tl (i + 1) _ _ res.2

/-- A structure one of whose children always fails to represent itself
always fails to represent. -/
theorem strukt_AlwaysFails (g : Func) (fields : SFields)
    (h : ∃ c ∈ fieldObjs fields, AlwaysFails g c) : AlwaysFails g (.strukt fields) := by
  intro gf path st
  unfold repObj
  dsimp only
  rw [repFields_fail g fields h gf path (stLinkFor st path).1 0 [] [] (stLinkFor st path).2]


/-- If the first run's tree below `b` contains at least one leaf and all its
leaves are processed values (dead in `g`), then re-reading `b` in `g`
succeeds but yields an object that always fails to represent. -/
theorem runTwo_fail (f g : Func) (fb : Nat) (L : List VRef)
    (Hdead : ∀ v ∈ L, usersOf g v = [])
    (Hana : ∀ b, OldNonConst fb b → b ∉ L → analyzeObject g b = analyzeObject f b)
    (Hids : ∀ (v : VRef) (p : Nat × Instr), p ∈ usersOf f v → p.1 < fb) :
    ∀ (fuel : Nat) (b : VRef) (o : SObj), readObject f fuel b = some o →
    (∀ v ∈ leafVals o, v ∈ L) → leafVals o ≠ [] → OldNonConst fb b →
    ∀ fuel', fuel ≤ fuel' → ∃ o2, readObject g fuel' b = some o2 ∧ AlwaysFails g o2 := by
  intro fuel
  induction fuel with
  | zero =>
    intro b o h
    cases h
  | succ fuel ih =>
    intro b o h hsub hne hold fuel' hf
    obtain ⟨k', rfl⟩ : ∃ k', fuel' = k' + 1 := ⟨fuel' - 1, by omega⟩
    by_cases hbL : b ∈ L
    · have hd := Hdead b hbL
      have hag : analyzeObject g b = some ⟨false, []⟩ := analyzeObject_of_no_users g b hd
      refine ⟨.obj b, ?_, leaf_AlwaysFails g b hd⟩
      unfold readObject
      rw [hag]
    · unfold readObject at h
      cases ha : analyzeObject f b with
      | none =>
        rw [ha] at h
        cases h
      | some r =>
        rw [ha] at h
        dsimp only at h
        cases hco : r.constantOffsets with
        | nil =>
          rw [hco] at h
          cases h
          exact absurd (hsub b (by simp [leafVals])) hbL
        | cons p rest =>
          obtain ⟨c0, u0⟩ := p
          rw [hco] at h
          cases h
          have hnc : r.hasCast = false := by
            by_contra hcx
            have hc2 : r.hasCast = true := by simpa using hcx
            apply hbL
            apply hsub b
            rw [leafVals, leafValsF_mem]
            refine ⟨(0, .obj b), ?_, by simp [leafVals]⟩
            rw [readFields_toList, hc2]
            exact List.mem_append_left _ (by simp [SFields.toList])
          -- extract a child subtree with a leaf
          have hne2 := hne
          rw [leafVals] at hne2
          obtain ⟨v0, hv0⟩ := List.exists_mem_of_ne_nil _ hne2
          rw [leafValsF_mem, readFields_toList, hnc] at hv0
          obtain ⟨q, hq, hvq⟩ := hv0
          simp only [Bool.false_eq_true, if_false, SFields.toList, List.nil_append] at hq
          rcases List.mem_filterMap.mp hq with ⟨⟨c, uid⟩, hcl, hgq⟩
          rcases Option.map_eq_some'.mp hgq with ⟨ch, hch, hq2⟩
          have hchleaf : v0 ∈ leafVals ch := by
            rw [← hq2] at hvq
            exact hvq
          -- the child's id is an old instruction
          have hidold : OldNonConst fb (VRef.inst uid) := by
            have hvals := analyzeGo_values b (usersOf f b) false [] r ha (c, uid)
              (by rw [hco]; exact hcl)
            rcases hvals with hm | ⟨q1, hq1, hq1e⟩
            · cases hm
            · refine Or.inr ⟨uid, rfl, ?_⟩
              have hlt := Hids b q1 hq1
              rw [hq1e] at hlt
              exact hlt
          -- the child's leaves are processed
          have hchsub : ∀ v ∈ leafVals ch, v ∈ L := by
            intro v hv
            apply hsub v
            rw [leafVals, leafValsF_mem]
            refine ⟨q, ?_, by rw [← hq2]; exact hv⟩
            rw [readFields_toList, hnc]
            simp only [Bool.false_eq_true, if_false, SFields.toList, List.nil_append]
            exact List.mem_filterMap.mpr ⟨(c, uid), hcl, hgq⟩
          obtain ⟨ch2, hch2, hfail2⟩ := ih (.inst uid) ch hch hchsub
            (fun he => by rw [he] at hchleaf; cases hchleaf) hidold k' (by omega)
          have hag : analyzeObject g b = some r := by
            rw [Hana b hold hbL, ha]
          refine ⟨.strukt (readFields c0 (fun uid2 => readObject g k' (.inst uid2))
            ((c0, u0) :: rest) .nil), ?_, ?_⟩
          · have heq : readObject g (k' + 1) b =
                (match analyzeObject g b with
                 | none => none
                 | some r =>
                   match r.constantOffsets with
                   | [] => some (.obj b)
                   | (front, uid0) :: rest2 =>
                     some (.strukt (readFields front
                       (fun uid => readObject g k' (.inst uid)) ((front, uid0) :: rest2)
                       (if r.hasCast then .cons 0 (.obj b) .nil else .nil)))) := rfl
            rw [heq, hag]
            dsimp only
            rw [hco]
            dsimp only
            rw [hnc]
            rfl
          · apply strukt_AlwaysFails
            refine ⟨ch2, ?_, hfail2⟩
            rw [fieldObjs_toList]
            refine ⟨c - c0, ?_⟩
            rw [readFields_toList]
            simp only [SFields.toList, List.nil_append]
            exact List.mem_filterMap.mpr ⟨(c, uid), hcl, by rw [hch2]; rfl⟩


/-! ## The constant-offset map keeps its first binding (claim C10) -/

/-- Every element of the map after an ordered insert is the inserted pair or
an element of the original map. -/
theorem mem_mapInsert (k : Int) (v : Nat) (m : List (Int × Nat)) (x : Int × Nat)
    (hx : x ∈ mapInsert k v m) : x = (k, v) ∨ x ∈ m := by
  induction m with
  | nil =>
    unfold mapInsert at hx
    rcases List.mem_cons.mp hx with rfl | h
    · exact Or.inl rfl
    · cases h
  | cons p rest ih =>
    obtain ⟨k', v'⟩ := p
    unfold mapInsert at hx
    split at hx
    · rcases List.mem_cons.mp hx with rfl | h
      · exact Or.inl rfl
      · exact Or.inr h
    · split at hx
      · exact Or.inr hx
      · rcases List.mem_cons.mp hx with rfl | h
        · exact Or.inr (List.mem_cons_self _ _)
        · rcases ih h with h1 | h1
          · exact Or.inl h1
          · exact Or.inr (List.mem_cons_of_mem _ h1)

/-- The original bindings survive an ordered insert. -/
theorem subset_mapInsert (k : Int) (v : Nat) (m : List (Int × Nat)) :
    ∀ x ∈ m, x ∈ mapInsert k v m := by
  induction m with
  | nil => intro x hx; cases hx
  | cons p rest ih =>
    obtain ⟨k', v'⟩ := p
    intro x hx
    unfold mapInsert
    split
    · exact List.mem_cons_of_mem _ hx
    · split
      · exact hx
      · rcases List.mem_cons.mp hx with rfl | h
        · exact List.mem_cons_self _ _
        · exact List.mem_cons_of_mem _ (ih x h)

/-- An ordered insert preserves the strict ascending order of the keys. -/
theorem mapInsert_pairwise (k : Int) (v : Nat) (m : List (Int × Nat))
    (h : m.Pairwise (fun p q => p.1 < q.1)) :
    (mapInsert k v m).Pairwise (fun p q => p.1 < q.1) := by
  induction m with
  | nil => simp [mapInsert]
  | cons p rest ih =>
    obtain ⟨k', v'⟩ := p
    rw [List.pairwise_cons] at h
    obtain ⟨hhead, htail⟩ := h
    unfold mapInsert
    split
    · rename_i hlt
      refine List.Pairwise.cons ?_ (List.Pairwise.cons hhead htail)
      intro x hx
      rcases List.mem_cons.mp hx with rfl | hxm
      · exact hlt
      · exact lt_trans hlt (hhead x hxm)
    · split
      · exact List.Pairwise.cons hhead htail
      · rename_i hnlt hne
        have hgt : k' < k := by omega
        refine List.Pairwise.cons ?_ (ih htail)
        intro x hx
        rcases mem_mapInsert k v rest x hx with rfl | hxm
        · exact hgt
        · exact hhead x hxm

/-- The lookup misses exactly when no binding carries the key. -/
theorem mapLookup_none_iff (c : Int) (m : List (Int × Nat)) :
    mapLookup c m = none ↔ ∀ x ∈ m, x.1 ≠ c := by
  simp [mapLookup, List.find?_eq_none]

/-- A successful lookup returns a binding of the map. -/
theorem mapLookup_some_mem (c : Int) (i : Nat) (m : List (Int × Nat))
    (h : mapLookup c m = some i) : (c, i) ∈ m := by
  unfold mapLookup at h
  rcases Option.map_eq_some'.mp h with ⟨x, hfind, hx2⟩
  have hmem := List.mem_of_find?_eq_some hfind
  have hkey : x.1 = c := by simpa using List.find?_some hfind
  obtain ⟨x1, x2⟩ := x
  dsimp only at hkey hx2
  subst hkey
  subst hx2
  exact hmem

/-- In a key-sorted map a binding determines the lookup. -/
theorem mem_mapLookup (c : Int) (i : Nat) (m : List (Int × Nat))
    (hp : m.Pairwise (fun p q => p.1 < q.1)) (h : (c, i) ∈ m) :
    mapLookup c m = some i := by
  induction m with
  | nil => cases h
  | cons p rest ih =>
    obtain ⟨k', v'⟩ := p
    rw [List.pairwise_cons] at hp
    obtain ⟨hhead, htail⟩ := hp
    rcases List.mem_cons.mp h with heq | hmem
    · cases heq
      unfold mapLookup
      rw [List.find?_cons_of_pos _ (by simp)]
      rfl
    · have h2 : k' < c := hhead (c, i) hmem
      have hk'c : k' ≠ c := by omega
      unfold mapLookup
      rw [List.find?_cons_of_neg _ (by simp [hk'c])]
      exact ih htail hmem

/-- Ordered insert of a key already bound does not change any lookup. -/
theorem mapLookup_mapInsert_some (c k : Int) (v w : Nat) (m : List (Int × Nat))
    (hp : m.Pairwise (fun p q => p.1 < q.1)) (h : mapLookup c m = some w) :
    mapLookup c (mapInsert k v m) = some w :=
  mem_mapLookup c w _ (mapInsert_pairwise k v m hp)
    (subset_mapInsert k v m _ (mapLookup_some_mem c w m h))

/-- The inserted pair is a binding when its key was absent. -/
theorem self_mem_mapInsert (k : Int) (v : Nat) (m : List (Int × Nat))
    (h : ∀ x ∈ m, x.1 ≠ k) : (k, v) ∈ mapInsert k v m := by
  induction m with
  | nil => simp [mapInsert]
  | cons p rest ih =>
    obtain ⟨k', v'⟩ := p
    unfold mapInsert
    split
    · exact List.mem_cons_self _ _
    · split
      · rename_i hne heq
        exact absurd heq.symm (h (k', v') (List.mem_cons_self _ _))
      · exact List.mem_cons_of_mem _
          (ih (fun x hx => h x (List.mem_cons_of_mem _ hx)))

/-- Ordered insert of an absent key binds it to the inserted value. -/
theorem mapLookup_mapInsert_self (k : Int) (v : Nat) (m : List (Int × Nat))
    (hp : m.Pairwise (fun p q => p.1 < q.1)) (h : mapLookup k m = none) :
    mapLookup k (mapInsert k v m) = some v :=
  mem_mapLookup k v _ (mapInsert_pairwise k v m hp)
    (self_mem_mapInsert k v m ((mapLookup_none_iff k m).mp h))

/-- Ordered insert of a different key does not create the key looked up. -/
theorem mapLookup_mapInsert_none (c k : Int) (v : Nat) (m : List (Int × Nat))
    (hck : c ≠ k) (h : mapLookup c m = none) :
    mapLookup c (mapInsert k v m) = none := by
  rw [mapLookup_none_iff] at h ⊢
  intro x hx
  rcases mem_mapInsert k v m x hx with rfl | hm
  · exact fun he => hck he.symm
  · exact h x hm

/-- In a key-sorted map a binding is the only one at its key. -/
theorem mapFilter_key (c : Int) (i : Nat) (m : List (Int × Nat))
    (hp : m.Pairwise (fun p q => p.1 < q.1)) (h : (c, i) ∈ m) :
    m.filter (fun q => decide (q.1 = c)) = [(c, i)] := by
  induction m with
  | nil => cases h
  | cons p rest ih =>
    obtain ⟨k', v'⟩ := p
    rw [List.pairwise_cons] at hp
    obtain ⟨hhead, htail⟩ := hp
    rcases List.mem_cons.mp h with heq | hmem
    · cases heq
      rw [List.filter_cons, if_pos (by simp)]
      have hrest : rest.filter (fun q => decide (q.1 = c)) = [] := by
        rw [List.filter_eq_nil_iff]
        intro x hx
        have h2 : c < x.1 := hhead x hx
        simp only [decide_eq_true_eq]
        omega
      rw [hrest]
    · have h2 : k' < c := hhead (c, i) hmem
      rw [List.filter_cons, if_neg (by simp only [decide_eq_true_eq]; omega)]
      exact ih htail hmem

/-- One step of the classifier loop: the user is either an addition of a
constant — recorded under its offset key — or contributes no offset and the
loop proceeds on the same map. -/
theorem analyzeGo_step (base : VRef) (uid : Nat) (u : Instr)
    (rest : List (Nat × Instr)) (hc : Bool) (m : List (Int × Nat))
    (r : ClassifyResult) (h : analyzeGo base ((uid, u) :: rest) hc m = some r) :
    (∃ c', addOffsetKey base u = some c' ∧
      analyzeGo base rest hc (mapInsert c' uid m) = some r) ∨
    (addOffsetKey base u = none ∧ ∃ hc2, analyzeGo base rest hc2 m = some r) := by
  cases hk : u.kind with
  | add =>
    simp only [analyzeGo, hk] at h
    cases ho : otherOperand base u with
    | none =>
      rw [ho] at h
      cases h
    | some vv =>
      rw [ho] at h
      cases vv with
      | arg i => cases h
      | inst i => cases h
      | cint c' =>
        refine Or.inl ⟨c', ?_, h⟩
        simp [addOffsetKey, hk, ho]
  | binOther =>
    simp only [analyzeGo, hk] at h
    cases h
  | _ =>
    simp only [analyzeGo, hk] at h
    exact Or.inr ⟨by simp [addOffsetKey, hk], _, h⟩

/-- The classifier keeps the key set sorted. -/
theorem analyzeGo_pairwise (base : VRef) (users : List (Nat × Instr)) :
    ∀ (hc : Bool) (m : List (Int × Nat)) (r : ClassifyResult),
    m.Pairwise (fun p q => p.1 < q.1) → analyzeGo base users hc m = some r →
    r.constantOffsets.Pairwise (fun p q => p.1 < q.1) := by
  induction users with
  | nil =>
    intro hc m r hp h
    unfold analyzeGo at h
    cases h
    exact hp
  | cons p rest ih =>
    intro hc m r hp h
    obtain ⟨uid, u⟩ := p
    rcases analyzeGo_step base uid u rest hc m r h with ⟨c', _, h2⟩ | ⟨_, hc2, h2⟩
    · exact ih hc _ r (mapInsert_pairwise c' uid m hp) h2
    · exact ih hc2 m r hp h2

/-- First-wins: the binding the classifier's map ends with at any key is the
first user keyed there — pending keys are resolved by the first matching
user, and already-present bindings are never overwritten. -/
theorem analyzeGo_lookup (base : VRef) (c : Int) (users : List (Nat × Instr)) :
    ∀ (hc : Bool) (m : List (Int × Nat)) (r : ClassifyResult),
    m.Pairwise (fun p q => p.1 < q.1) → analyzeGo base users hc m = some r →
    (∀ w, mapLookup c m = some w → mapLookup c r.constantOffsets = some w) ∧
    (mapLookup c m = none →
      mapLookup c r.constantOffsets =
        (users.find? (fun p => decide (addOffsetKey base p.2 = some c))).map (·.1)) := by
  induction users with
  | nil =>
    intro hc m r hp h
    unfold analyzeGo at h
    cases h
    refine ⟨fun w hw => hw, fun hn => ?_⟩
    simpa using hn
  | cons p rest ih =>
    intro hc m r hp h
    obtain ⟨uid, u⟩ := p
    rcases analyzeGo_step base uid u rest hc m r h with ⟨c', hkey, h2⟩ | ⟨hkey2, hc2, h2⟩
    · have hp2 := mapInsert_pairwise c' uid m hp
      obtain ⟨ih1, ih2⟩ := ih hc (mapInsert c' uid m) r hp2 h2
      constructor
      · intro w hw
        exact ih1 w (mapLookup_mapInsert_some c c' uid w m hp hw)
      · intro hn
        by_cases hcc : c' = c
        · subst hcc
          rw [List.find?_cons_of_pos _ (by simp [hkey])]
          have hl := mapLookup_mapInsert_self c' uid m hp hn
          exact ih1 uid hl
        · have hn2 : mapLookup c (mapInsert c' uid m) = none :=
            mapLookup_mapInsert_none c c' uid m (fun he => hcc he.symm) hn
          rw [ih2 hn2, List.find?_cons_of_neg _ (by simp [hkey, hcc])]
    · obtain ⟨ih1, ih2⟩ := ih hc2 m r hp h2
      refine ⟨ih1, fun hn => ?_⟩
      rw [ih2 hn, List.find?_cons_of_neg _ (by simp [hkey2])]

/-! ## Packaging a successful run -/

/-- A read that yields a structure comes from a classification with at least
one recorded constant offset. -/
theorem readObject_strukt_analyze (g : Func) (fuel : Nat) (b : VRef) (fs : SFields)
    (h : readObject g fuel b = some (.strukt fs)) :
    ∃ r c0 u0 rest, analyzeObject g b = some r ∧
      r.constantOffsets = (c0, u0) :: rest := by
  cases fuel with
  | zero => cases h
  | succ k =>
    unfold readObject at h
    cases ha : analyzeObject g b with
    | none =>
      rw [ha] at h
      cases h
    | some r =>
      rw [ha] at h
      dsimp only at h
      cases hco : r.constantOffsets with
      | nil =>
        rw [hco] at h
        cases h
      | cons p rest =>
        obtain ⟨c0, u0⟩ := p
        exact ⟨r, c0, u0, rest, rfl, hco⟩

/-- A classification with a recorded constant offset makes any successful
read a structure. -/
theorem readObject_strukt (g : Func) (fuel : Nat) (b : VRef) (o : SObj)
    (h : readObject g fuel b = some o) (r : ClassifyResult)
    (ha : analyzeObject g b = some r) (c0 : Int) (u0 : Nat) (rest : List (Int × Nat))
    (hco : r.constantOffsets = (c0, u0) :: rest) :
    ∃ fs, o = SObj.strukt fs := by
  cases fuel with
  | zero => cases h
  | succ k =>
    unfold readObject at h
    rw [ha] at h
    dsimp only at h
    rw [hco] at h
    cases h
    exact ⟨_, rfl⟩

/-- The stages of a defined, successful run: the stack pointer, the abstract
tree — a structure, or the run would be undefined — whose leaves are exactly
the discovered objects, and the rewrite-phase invariant over the returned
function. -/
theorem run_success_spec (f f' : Func) (h : runOnFunction f = some (f', true)) :
    ∃ sp fields σ es,
      getStackPointer f = some sp ∧
      readObject f (fuelOf f) (.arg sp) = some (.strukt fields) ∧
      leafVals (.strukt fields) = (discoveredLeaves f).map (·.2) ∧
      f' = es.g ∧
      EmitInv f (freshBase f) σ ((discoveredLeaves f).map (·.2)) es := by
  unfold runOnFunction at h
  cases hsp : getStackPointer f with
  | none =>
    rw [hsp] at h
    dsimp only at h
    simp at h
  | some sp =>
    rw [hsp] at h
    dsimp only at h
    cases hro : readObject f (fuelOf f) (.arg sp) with
    | none =>
      rw [hro] at h
      dsimp only at h
      simp at h
    | some root =>
      rw [hro] at h
      cases root with
      | obj v =>
        dsimp only at h
        cases h
      | strukt fields =>
        dsimp only at h
        cases hrf : representFrame f (fuelOf f) (.strukt fields) with
        | none =>
          rw [hrf] at h
          dsimp only at h
          simp at h
        | some q =>
          obtain ⟨st, rootTy⟩ := q
          rw [hrf] at h
          dsimp only at h
          have hf' : f' = applyFrame f st rootTy := by
            have h2 := Option.some_inj.mp h
            exact (congrArg Prod.fst h2).symm
          have haf : analyzeFrame f = some (.strukt fields, st, rootTy) := by
            unfold analyzeFrame
            rw [hsp]
            dsimp only
            rw [hro]
            dsimp only
            rw [hrf]
          have hd : discoveredLeaves f = st.allObjs := by
            unfold discoveredLeaves
            rw [haf]
          have hcov : ∀ po ∈ st.allObjs,
              (st.linkMap.find? (fun q2 => q2.1 = po.1)).isSome = true := by
            intro po hpo
            exact representFrame_cover f (fuelOf f) (.strukt fields) st rootTy hrf po hpo
          have hleaf : st.allObjs.map (·.2) = leafVals (.strukt fields) :=
            representFrame_allObjs f (fuelOf f) (.strukt fields) st rootTy hrf
          have hold : ∀ po ∈ st.allObjs, OldNonConst (freshBase f) po.2 := by
            intro po hpo
            have hmem : po.2 ∈ leafVals (.strukt fields) := by
              rw [← hleaf]
              exact List.mem_map_of_mem _ hpo
            rcases readObject_leaves f (fuelOf f) (.arg sp) (.strukt fields) hro po.2
              hmem with h1 | ⟨uid, he, q, hq, hq1⟩
            · exact Or.inl ⟨sp, h1⟩
            · exact Or.inr ⟨uid, he, hq1 ▸ freshBase_bound f q hq⟩
          obtain ⟨σ, es, happ, inv⟩ := applyFrame_inv f st rootTy hcov hold
          refine ⟨sp, fields, σ, es, rfl, hro, ?_, ?_, ?_⟩
          · rw [hd]
            exact hleaf.symm
          · rw [hf', happ]
          · rw [hd]
            exact inv

/-! ## Idempotence on processed functions (claim C7) -/

/-- C7, amended.  The pass is idempotent on any function it has successfully
processed, *provided the run discovered at least one leaf and the stack
pointer itself was not one of them*: the second run's classifier sees the
same constant offsets at the stack pointer (its remaining users are
untouched), rebuilds a structure root, but every leaf's offset value has had
all its uses replaced, so every leaf fails to represent (its witnessed-type
set is empty) and the failure propagates to the root; the second run changes
nothing and reports "no change".  Both provisos are necessary: with no
leaves the pass re-emits an allocation (see the counterexample), and with
the stack pointer a leaf its second classification finds no users at all,
producing a leaf root on which the driver's behaviour is undefined (the
unchecked `cast<StructureStackObject>`, see C2). -/
theorem claim7_idempotent_amended (f f' : Func) (sp : Nat)
    (h : runOnFunction f = some (f', true))
    (hspv : getStackPointer f = some sp)
    (hne : discoveredLeaves f ≠ [])
    (hnl : VRef.arg sp ∉ (discoveredLeaves f).map (·.2)) :
    runOnFunction f' = some (f', false) := by
  obtain ⟨sp0, fields, σ, es, hsp, hro, hleaf, heq, inv⟩ := run_success_spec f f' h
  have hsp0 : sp0 = sp := by
    rw [hspv] at hsp
    exact (Option.some_inj.mp hsp).symm
  subst hsp0
  have hdead : ∀ v ∈ (discoveredLeaves f).map (·.2), usersOf es.g v = [] :=
    fun v hv => inv_dead f (freshBase f) σ _ es inv v hv
  have hsp2 : getStackPointer es.g = some sp0 := by
    unfold getStackPointer at hspv ⊢
    rw [inv.sp_eq, inv.args_eq]
    exact hspv
  have hfuel : fuelOf f ≤ fuelOf es.g := by
    have h1 : f.instrs.length ≤ es.g.instrs.length := by
      have hL := congrArg List.length inv.old_instrs
      rw [List.length_map] at hL
      calc f.instrs.length = (es.g.instrs.filter (fun p => p.1 < freshBase f)).length :=
            hL.symm
        _ ≤ es.g.instrs.length := List.length_filter_le _ _
    have h2 : f.detached.length ≤ es.g.detached.length := by
      have hL := congrArg List.length inv.old_detached
      rw [List.length_map] at hL
      calc f.detached.length = (es.g.detached.filter (fun p => p.1 < freshBase f)).length :=
            hL.symm
        _ ≤ es.g.detached.length := List.length_filter_le _ _
    unfold fuelOf
    omega
  have hsub : ∀ v ∈ leafVals (.strukt fields), v ∈ (discoveredLeaves f).map (·.2) := by
    rw [hleaf]
    exact fun v hv => hv
  have hne2 : leafVals (SObj.strukt fields) ≠ [] := by
    rw [hleaf]
    intro hx
    exact hne (List.map_eq_nil_iff.mp hx)
  obtain ⟨r, c0, u0, rest, ha, hco⟩ :=
    readObject_strukt_analyze f (fuelOf f) (.arg sp0) fields hro
  have hana2 : analyzeObject es.g (.arg sp0) = some r := by
    rw [inv_analyze_eq f (freshBase f) σ _ es inv (.arg sp0) (Or.inl ⟨sp0, rfl⟩) hnl]
    exact ha
  obtain ⟨o2, hro3, hfail⟩ := runTwo_fail f es.g (freshBase f)
    ((discoveredLeaves f).map (·.2)) hdead
    (fun b hb hbL => inv_analyze_eq f (freshBase f) σ _ es inv b hb hbL)
    (fun v p hp => usersOf_id_lt f v p hp)
    (fuelOf f) (.arg sp0) (.strukt fields) hro hsub hne2 (Or.inl ⟨sp0, rfl⟩)
    (fuelOf es.g) hfuel
  obtain ⟨fs2, rfl⟩ :=
    readObject_strukt es.g (fuelOf es.g) (.arg sp0) o2 hro3 r hana2 c0 u0 rest hco
  have hrf2 : representFrame es.g (fuelOf es.g) (.strukt fs2) = none := by
    unfold representFrame
    dsimp only
    rw [hfail (fuelOf es.g) [] FrameSt.empty]
  rw [heq]
  unfold runOnFunction
  rw [hsp2]
  dsimp only
  rw [hro3]
  dsimp only
  rw [hrf2]

/-- C7, counterexample to the unconditional claim.  `F7` is processed
successfully — the run is defined, returns "changed" and tags a stack-frame
allocation — but discovers no leaf (its only candidate local fails
classification, leaving an empty root structure, which *is* representable as
an empty packed struct).  The second run finds the same empty structure
again, emits a second tagged allocation and again reports "changed": the
pass is not idempotent on it. -/
theorem claim7_cex :
    runOnFunction F7 = some (runResult F7) ∧
    (runResult F7).2 = true ∧
    discoveredLeaves F7 = [] ∧
    (runOnFunction (runResult F7).1).map (fun p => p.2) = some true ∧
    runOnFunction (runResult F7).1 ≠ some ((runResult F7).1, false) := by decide

/-- C7, witness for the amended statement, at `F2`. -/
theorem claim7_witness :
    runOnFunction (runResult F2).1 = some ((runResult F2).1, false) :=
  claim7_idempotent_amended F2 (runResult F2).1 0 (by decide) (by decide) (by decide)
    (by decide)

/-! ## Use-replacement totality (claim C8) -/

/-- C8, confirmed (in the strong form).  After a defined successful run,
every discovered leaf's offset value has *no* remaining users at all — in
particular none outside the pass's own emitted pointer-to-integer cast,
which takes the freshly built pointer, not the old value, as operand. -/
theorem claim8_leaves_dead (f f' : Func) (h : runOnFunction f = some (f', true)) :
    ∀ po ∈ discoveredLeaves f, usersOf f' po.2 = [] := by
  obtain ⟨sp, fields, σ, es, hsp, hro, hleaf, heq, inv⟩ := run_success_spec f f' h
  intro po hpo
  rw [heq]
  exact inv_dead f (freshBase f) σ _ es inv po.2 (List.mem_map_of_mem _ hpo)

/-- C8, witness at `F2`: the discovered leaf is the `sp + 0` addition
(instruction 1), and it has no users after the run. -/
theorem claim8_witness :
    usersOf (runResult F2).1 (VRef.inst 1) = [] :=
  claim8_leaves_dead F2 (runResult F2).1 (by decide) ([0], .inst 1) (by decide)

/-! ## The first addition wins (claim C10) -/

/-- C10, confirmed.  When two distinct additions add the same constant to a
base, the classifier's ordered map keeps the first user it encountered for
that offset (`std::map::insert` does not overwrite): the map binds the offset
to the first matching user, that binding is the only one at the offset —
hence a single leaf — and after a defined successful run in which the second
addition was not itself discovered as a leaf, the second addition's users
survive with their ids unchanged (its result is never replaced). -/
theorem claim10_first_add_wins (f f' : Func) (b : VRef) (c : Int)
    (i1 : Nat) (u1 : Instr) (i2 : Nat) (u2 : Instr) (r : ClassifyResult)
    (ha : analyzeObject f b = some r)
    (hfirst : (usersOf f b).find? (fun p => decide (addOffsetKey b p.2 = some c)) =
      some (i1, u1))
    (hmem : (i2, u2) ∈ usersOf f b) (hadd : addOffsetKey b u2 = some c)
    (hrun : runOnFunction f = some (f', true))
    (hnotleaf : VRef.inst i2 ∉ (discoveredLeaves f).map (·.2)) :
    mapLookup c r.constantOffsets = some i1 ∧
    r.constantOffsets.filter (fun q => decide (q.1 = c)) = [(c, i1)] ∧
    (usersOf f' (.inst i2)).map (·.1) = (usersOf f (.inst i2)).map (·.1) := by
  have hlook : mapLookup c r.constantOffsets = some i1 := by
    obtain ⟨_, h2⟩ := analyzeGo_lookup b c (usersOf f b) false [] r List.Pairwise.nil ha
    rw [h2 rfl, hfirst]
    rfl
  have hpair : r.constantOffsets.Pairwise (fun p q => p.1 < q.1) :=
    analyzeGo_pairwise b (usersOf f b) false [] r List.Pairwise.nil ha
  refine ⟨hlook, mapFilter_key c i1 r.constantOffsets hpair
    (mapLookup_some_mem c i1 r.constantOffsets hlook), ?_⟩
  obtain ⟨sp, fields, σ, es, hsp, hro, hleaf, heq, inv⟩ := run_success_spec f f' hrun
  have hold : OldNonConst (freshBase f) (.inst i2) :=
    Or.inr ⟨i2, rfl, usersOf_id_lt f b (i2, u2) hmem⟩
  rw [heq, inv_users_eq f (freshBase f) σ _ es inv (.inst i2) hold hnotleaf]
  rw [List.map_map]
  rfl

/-- C10, witness at `F10`: the stack pointer has two `sp + 4` additions
(instructions 1 and 2); the classifier binds offset 4 to instruction 1 only,
and after the run instruction 2's user list is untouched. -/
theorem claim10_witness :
    mapLookup 4 [((4 : Int), 1)] = some 1 ∧
    List.filter (fun q => decide (q.1 = (4 : Int))) [((4 : Int), 1)] = [(4, 1)] ∧
    (usersOf (runResult F10).1 (.inst 2)).map (·.1) =
      (usersOf F10 (.inst 2)).map (·.1) :=
  claim10_first_add_wins F10 (runResult F10).1 (.arg 0) 4 1
    ⟨.add, [.arg 0, .cint 4], .int 64⟩
    2 ⟨.add, [.arg 0, .cint 4], .int 64⟩ ⟨false, [(4, 1)]⟩
    (by decide) (by decide) (by decide) (by decide) (by decide) (by decide)

/-! ## The insertion point for non-instruction offset values (claim C6) -/

/-- C6: the code diverges from the claim.  On `F6` the implicit leaf at
offset 0 has the stack-pointer *argument* as offset value.  The driver's
`dyn_cast<Instruction>` yields a null insertion point, and the emitted
`getelementptr` and `ptrtoint` (ids 7 and 8) are created *without a parent
block* — they sit in no instruction list of the function, rather than being
inserted before the allocation (id 6) as the claim states — while the
replacement still rewires instruction 1 to use the dangling cast 8. -/
theorem claim6_dangling_rewrite :
    discoveredLeaves F6 = [([0], .arg 0), ([1], .inst 3)] ∧
    instOf (.arg 0) = none ∧
    runOnFunction F6 = some (runResult F6) ∧
    (runResult F6).2 = true ∧
    (runResult F6).1.frameTags = [6] ∧
    (runResult F6).1.detached =
      [(7, ⟨.gep, [.inst 6, .cint 0, .cint 0], .ptr (.int 32)⟩),
       (8, ⟨.ptrToInt, [.inst 7], .int 64⟩)] ∧
    (runResult F6).1.instrs.find? (fun p => p.1 = 1) =
      some (1, ⟨.intToPtr, [.inst 8], .ptr (.int 32)⟩) ∧
    (∀ p ∈ (runResult F6).1.instrs, p.1 ≠ 7 ∧ p.1 ≠ 8) := by decide

end PassLocals
